import Mathlib

/-!
# Verification of the abbreviation-extraction core

This file gives a shallow embedding, in Lean 4, of the abbreviation-extraction
core of `Maryna_Project2_Q3_cloud.py`: the initials builder, the ampersand
truncator, the phrase matcher, the capitalization normalizer and the
four-pass pair extractor, and proves (or refutes) the specified properties.

Strings are modelled as `List Char`; Python's character predicates
(`str.isalpha`, `\w`, `\d`, `\s`) are modelled by their ASCII meaning, which
is the alphabet the program's patterns are written in.
-/

namespace AbbrCore

/-! ## Character classes (ASCII reading of Python's predicates) -/

/-- Python whitespace (`\s`, `str.split()` with no argument): space, tab,
newline, carriage return, vertical tab, form feed. -/
def pyIsSpace (c : Char) : Bool :=
  c == ' ' || c == '\t' || c == '\n' || c == '\r' || c == '\x0b' || c == '\x0c'

/-- A regex word character `\w`: letter, digit or underscore. -/
def isWordChar (c : Char) : Bool :=
  c.isAlphanum || c == '_'

/-- The ASCII apostrophe `'` (written by code point to keep the source plain). -/
def quoteChar : Char := Char.ofNat 39

/-- The right single quotation mark `’` (U+2019). -/
def rquoteChar : Char := Char.ofNat 8217

/-- A hyphen or en-dash, the separators `normalize_phrase_caps` and
`build_initials` treat specially. -/
def isDashChar (c : Char) : Bool :=
  c == '-' || c == rquoteDash
where
  /-- The en-dash `–` (U+2013). -/
  rquoteDash : Char := Char.ofNat 8211

/-! ## Python string helpers -/

/-- `s.strip(chars)`: remove the characters of `chars` from both ends. -/
def pyStrip (chars : List Char) (s : List Char) : List Char :=
  ((s.dropWhile (fun c => chars.contains c)).reverse.dropWhile
    (fun c => chars.contains c)).reverse

/-- Split a list at every character satisfying `p`, dropping the separators and
keeping empty pieces (the behaviour of `re.split` on a one-character class). -/
def splitOnPred (p : Char → Bool) : List Char → List (List Char)
  | [] => [[]]
  | c :: rest =>
    if p c then [] :: splitOnPred p rest
    else
      match splitOnPred p rest with
      | [] => [[c]]
      | w :: ws => (c :: w) :: ws

/-- Python `s.split()` with no argument: split on whitespace runs and drop
empty pieces. -/
def pySplit (s : List Char) : List (List Char) :=
  (splitOnPred pyIsSpace s).filter (fun w => !w.isEmpty)

/-- Python `s.strip()` with no argument: remove whitespace from both ends. -/
def stripWs (s : List Char) : List Char :=
  ((s.dropWhile pyIsSpace).reverse.dropWhile pyIsSpace).reverse

/-- The scan of `re.sub(r"\s+", " ", s)`; the flag records whether the
previous character was whitespace (so its run already emitted its space). -/
def collapseWsGo : Bool → List Char → List Char
  | _, [] => []
  | inRun, c :: rest =>
    if pyIsSpace c then
      if inRun then collapseWsGo true rest
      else ' ' :: collapseWsGo true rest
    else c :: collapseWsGo false rest

/-- `re.sub(r"\s+", " ", s)`: collapse every whitespace run to one space. -/
def collapseWs (s : List Char) : List Char :=
  collapseWsGo false s

/-! ## Helper constants of the program -/

/-- The punctuation stripped from word boundaries: `".,;:()[]"`. -/
def punctChars : List Char := ['.', ',', ';', ':', '(', ')', '[', ']']

/-- The characters stripped around phrases: `" ,.;:"`. -/
def phraseStripChars : List Char := [' ', ',', '.', ';', ':']

/-- `PREPS`: words ignored when building initials. -/
def PREPS : List (List Char) :=
  ["of", "for", "in", "on", "at", "by", "to", "from", "with",
   "about", "into", "over", "under", "between", "through",
   "the", "a", "an", "is", "are", "was", "were", "be", "being",
   "this", "that", "these", "those", "as", "than", "via"].map String.toList

/-- `PREFIXES`: compound prefixes treated specially when building initials. -/
def PREFIXES : List (List Char) :=
  ["auto", "multi", "micro", "macro",
   "electro", "hyper", "hypo",
   "inter", "intra",
   "ultra", "super", "sub", "trans"].map String.toList

/-! ## `first_alpha_char` and `build_initials` -/

/-- `first_alpha_char(s)`: the first alphabetical character of `s`, if any. -/
def first_alpha_char (s : List Char) : Option Char :=
  s.find? Char.isAlpha

/-- The sub-parts of one word inside `build_initials`: hyphens and en-dashes
replaced by spaces, lowercased, split on whitespace. -/
def wordParts (w : List Char) : List (List Char) :=
  pySplit ((w.map (fun c => if isDashChar c then ' ' else c)).map Char.toLower)

/-- The initial contributed by one sub-part when prefixes are not used:
its first alphabetical character, uppercased (nothing when there is none). -/
def partInitialBase (p : List Char) : List Char :=
  match first_alpha_char p with
  | some ch => [ch.toUpper]
  | none => []

/-- The first prefix of `PREFIXES` (in list order) that `p` starts with and is
strictly longer than, if any. -/
def findPref (p : List Char) : Option (List Char) :=
  PREFIXES.find? (fun pref => pref.isPrefixOf p && decide (pref.length < p.length))

/-- The initials contributed by one sub-part: with `use_prefixes`, a detected
prefix contributes its first letter and the root's first alphabetical
character; otherwise the sub-part contributes its first alphabetical
character. -/
def partInitials (use_prefixes : Bool) (p : List Char) : List Char :=
  if use_prefixes then
    match findPref p with
    | some pref =>
      (match pref.head? with
       | some c => [c.toUpper]
       | none => []) ++
      (match first_alpha_char (p.drop pref.length) with
       | some ch => [ch.toUpper]
       | none => [])
    | none => partInitialBase p
  else partInitialBase p

/-- The loop body of `build_initials` over the cleaned words, returning the
initials in word order and the `has_and` flag. -/
def buildInitialsGo (has_amp use_prefixes : Bool) : List (List Char) → List Char × Bool
  | [] => ([], false)
  | w :: rest =>
    let r := buildInitialsGo has_amp use_prefixes rest
    let wlc := w.map Char.toLower
    if wlc = "and".toList then (r.1, has_amp || r.2)
    else if wlc ∈ PREPS then r
    else (((wordParts w).map (partInitials use_prefixes)).flatten ++ r.1, r.2)

/-- `build_initials(words, has_amp, use_prefixes)`. -/
def build_initials (words : List (List Char)) (has_amp use_prefixes : Bool) :
    List Char × Bool :=
  buildInitialsGo has_amp use_prefixes
    (words.filterMap (fun w =>
      let s := pyStrip punctChars w
      if s.isEmpty then none else some s))

/-! ## `truncate_words_for_ampersand` -/

/-- The scan of `truncate_words_for_ampersand`, carrying the initials collected
so far. -/
def truncateGo (letters_only : List Char) : List (List Char) → List Char → List (List Char)
  | [], _ => []
  | w :: rest, collected =>
    let core := pyStrip punctChars w
    if core.isEmpty then w :: truncateGo letters_only rest collected
    else
      let low := core.map Char.toLower
      if low ∈ PREPS ∨ low = "and".toList then w :: truncateGo letters_only rest collected
      else
        match first_alpha_char core with
        | none => w :: truncateGo letters_only rest collected
        | some fa =>
          if collected.length < letters_only.length ∧
              letters_only.get? collected.length = some fa then
            if collected.length + 1 = letters_only.length then [w]
            else w :: truncateGo letters_only rest (collected ++ [fa])
          else []

/-- `truncate_words_for_ampersand(words, letters_only)`. -/
def truncate_words_for_ampersand (words : List (List Char)) (letters_only : List Char) :
    List (List Char) :=
  truncateGo letters_only words []

/-! ## `phrase_matches_abbr` -/

/-- The letters-only form of an abbreviation: alphabetic characters, uppercased. -/
def lettersOnly (abbr : List Char) : List Char :=
  (abbr.filter Char.isAlpha).map Char.toUpper

/-- Abbreviation variants accepted: the letters-only form, plus the singular
form without its trailing `S` when the length is at least 3. -/
def candidatesOf (lo : List Char) : List (List Char) :=
  if 3 ≤ lo.length ∧ lo.getLast? = some 'S' then [lo, lo.dropLast] else [lo]

/-- The inner `check` of `phrase_matches_abbr`. -/
def checkAccept (lo : List Char) (has_amp : Bool) (istr : List Char) (has_and : Bool) :
    Bool :=
  (decide (istr ∈ candidatesOf lo) && (!has_amp || has_and)) ||
  (has_amp && decide (lo.length = 2) && lo.isPrefixOf istr &&
    decide (lo.length < istr.length) && has_and)

/-- `phrase_matches_abbr(words, abbr)`: try initials without prefixes; if that
fails and the initials are already at least as many as the letters-only form,
give up; otherwise retry with prefixes. -/
def phrase_matches_abbr (words : List (List Char)) (abbr : List Char) : Bool :=
  let lo := lettersOnly abbr
  let has_amp := abbr.contains '&'
  let b := build_initials words has_amp false
  if checkAccept lo has_amp b.1 b.2 then true
  else if decide (lo.length ≤ b.1.length) then false
  else
    let p := build_initials words has_amp true
    checkAccept lo has_amp p.1 p.2

/-- Modelled from the spec: the variant of `phrase_matches_abbr` that always
runs both initials-building passes, with no early exit. -/
def phrase_matches_abbr_both (words : List (List Char)) (abbr : List Char) : Bool :=
  let lo := lettersOnly abbr
  let has_amp := abbr.contains '&'
  let b := build_initials words has_amp false
  let p := build_initials words has_amp true
  checkAccept lo has_amp b.1 b.2 || checkAccept lo has_amp p.1 p.2

/-! ## `normalize_phrase_caps` -/

/-- The lowercased display words: `PREPS` plus `"and"` and `"or"`. -/
def lowerWords : List (List Char) :=
  PREPS ++ ["and".toList, "or".toList]

/-- The character-by-character scan of the source's segment loop
(`re.split(r"([-–])", core)` with `p[0].upper() + p[1:].lower()` on each
non-empty segment, dashes kept verbatim).  The flag records whether the scan
is at the start of a segment, i.e. the next non-dash character is capitalized;
a dash resets it, so empty segments contribute nothing, exactly as in the
source's `if p:` filter. -/
def titleCoreGo : Bool → List Char → List Char
  | _, [] => []
  | atStart, c :: rest =>
    if isDashChar c then c :: titleCoreGo true rest
    else (if atStart then c.toUpper else c.toLower) :: titleCoreGo false rest

/-- Title-case a core around hyphens and en-dashes: each dash-delimited
segment is capitalized independently, the dashes are kept verbatim. -/
def titleCore (s : List Char) : List Char :=
  titleCoreGo true s

/-- `re.sub(r"[’']s(?=\W*$)", "", w)`: remove every apostrophe-`s` whose
remainder consists only of non-word characters, scanning left to right. -/
def stripPoss : List Char → List Char
  | [] => []
  | [c] => [c]
  | c :: d :: rest =>
    if (c = quoteChar ∨ c = rquoteChar) ∧ d = 's' ∧
        rest.all (fun e => !isWordChar e) then
      stripPoss rest
    else c :: stripPoss (d :: rest)

/-- Python `str.isupper()`: at least one cased character and no lowercase
cased character (ASCII: cased means alphabetic). -/
def pyIsUpperStr (s : List Char) : Bool :=
  s.any Char.isAlpha && s.all (fun c => !c.isAlpha || c.isUpper)

/-- The re-casing of a nonempty core: keep it when it is all-caps or contains
a digit, lowercase a non-leading stop word, otherwise title-case it around
dashes. -/
def newCoreOf (isFirst : Bool) (core : List Char) : List Char :=
  if pyIsUpperStr core || core.any Char.isDigit then core
  else if core.map Char.toLower ∈ lowerWords ∧ isFirst = false then
    core.map Char.toLower
  else titleCore core

/-- The per-word transformation of `normalize_phrase_caps`.  The word is split
as `pre ++ core ++ suf` where `pre` is the maximal leading run of non-word
characters and `suf` the maximal trailing one (this agrees with the source's
`re.match(r'^\W+')` / `re.search(r'\W+$')` index computation: when the word is
all non-word the core is empty and the word passes through unchanged, which is
also what the index computation yields). -/
def normWord (isFirst isLast : Bool) (word : List Char) : List Char :=
  let pre := word.takeWhile (fun c => !isWordChar c)
  let mid := word.dropWhile (fun c => !isWordChar c)
  let core := (mid.reverse.dropWhile (fun c => !isWordChar c)).reverse
  let suf := (mid.reverse.takeWhile (fun c => !isWordChar c)).reverse
  if core.isEmpty then word
  else
    let wordFinal := pre ++ newCoreOf isFirst core ++ suf
    if isLast then stripPoss wordFinal else wordFinal

/-- Apply `normWord` to every word, with its position flags (`i == 0`,
`i == n - 1`). -/
def normWords (n : Nat) : Nat → List (List Char) → List (List Char)
  | _, [] => []
  | i, w :: rest => normWord (i == 0) (i == n - 1) w :: normWords n (i + 1) rest

/-- `normalize_phrase_caps(phrase)`. -/
def normalize_phrase_caps (phrase : List Char) : List Char :=
  let words := pySplit phrase
  List.intercalate [' '] (normWords words.length 0 words)

/-! ## The four anchored regular patterns

Each pattern of `extract_abbreviation_pairs` is translated as a deterministic
scanner: for these patterns, greedy maximal-munch character-class runs agree
with the backtracking regex engine, because every quantified class is disjoint
from the character that must follow it (shrinking a maximal run can never make
the required next literal appear).  `re.finditer` is modelled by `finditerP`,
which tries every position left to right and skips over each match. -/

/-- The class `[A-Z&]` of the abbreviation anchors. -/
def isAbbrChar (c : Char) : Bool := c.isUpper || c == '&'

/-- A regex word boundary `\b` between the already-consumed reversed text and
the next character. -/
def wordBoundaryAt (prevRev : List Char) (c : Char) : Bool :=
  match prevRev.head? with
  | none => isWordChar c
  | some d => isWordChar c != isWordChar d

/-- Take the maximal run of characters satisfying `p` and the remainder. -/
def takeRun (p : Char → Bool) (s : List Char) : List Char × List Char :=
  (s.takeWhile p, s.dropWhile p)

/-- `re.finditer`: attempt a match at every position from left to right; on a
match, emit its payload and continue after it.  `prevRev` is the already
scanned text, reversed (used for `\b` and for the lookback window of pass 4);
the fuel is an upper bound on the number of steps. -/
def finditerP {α : Type} (tryM : List Char → List Char → Option (α × Nat)) :
    Nat → List Char → List Char → List α
  | 0, _, _ => []
  | _ + 1, _, [] => []
  | fuel + 1, prevRev, c :: rest =>
    match tryM prevRev (c :: rest) with
    | some (g, n) =>
      let k := max n 1
      g :: finditerP tryM fuel (((c :: rest).take k).reverse ++ prevRev)
        ((c :: rest).drop k)
    | none => finditerP tryM fuel (c :: prevRev) rest

/-- Pattern 0a, `\b(\d+-digit\s+([A-Z]{2,}))\s*\(([A-Z]{2,}\d+)\)`:
returns (group 1, group 3) and the number of characters consumed. -/
def tryMatch0a (prevRev s : List Char) : Option ((List Char × List Char) × Nat) :=
  match s.head? with
  | none => none
  | some c =>
    if !(c.isDigit && wordBoundaryAt prevRev c) then none
    else
      let (d1, r1) := takeRun Char.isDigit s
      if !("-digit".toList.isPrefixOf r1) then none
      else
        let r2 := r1.drop 6
        let (ws1, r3) := takeRun pyIsSpace r2
        if ws1.isEmpty then none
        else
          let (caps1, r4) := takeRun Char.isUpper r3
          if caps1.length < 2 then none
          else
            let r5 := r4.dropWhile pyIsSpace
            match r5.head? with
            | some '(' =>
              let r6 := r5.tail
              let (caps2, r7) := takeRun Char.isUpper r6
              if caps2.length < 2 then none
              else
                let (d2, r8) := takeRun Char.isDigit r7
                if d2.isEmpty then none
                else
                  match r8.head? with
                  | some ')' =>
                    some ((d1 ++ "-digit".toList ++ ws1 ++ caps1, caps2 ++ d2),
                      s.length - r8.tail.length)
                  | _ => none
            | _ => none

/-- Pattern 0b, `\b([A-Z]{2,}\d+)\s*\(([^)]+)\)`: returns (group 1, group 2)
and the characters consumed. -/
def tryMatch0b (prevRev s : List Char) : Option ((List Char × List Char) × Nat) :=
  match s.head? with
  | none => none
  | some c =>
    if !(c.isUpper && wordBoundaryAt prevRev c) then none
    else
      let (caps, r1) := takeRun Char.isUpper s
      if caps.length < 2 then none
      else
        let (ds, r2) := takeRun Char.isDigit r1
        if ds.isEmpty then none
        else
          let r3 := r2.dropWhile pyIsSpace
          match r3.head? with
          | some '(' =>
            let (content, r5) := takeRun (fun c => c != ')') r3.tail
            if content.isEmpty then none
            else
              match r5.head? with
              | some ')' => some ((caps ++ ds, content), s.length - r5.tail.length)
              | _ => none
          | _ => none

/-- The optional `[sS]?` after a maximal `[A-Z&]` run. -/
def optionalS (r : List Char) : List Char × List Char :=
  match r with
  | c :: rest => if c = 's' ∨ c = 'S' then ([c], rest) else ([], r)
  | [] => ([], [])

/-- Pattern 1, `\b([A-Z&]{2,}[sS]?)\s*\(([^)]+)\)`: returns (group 1, group 2)
and the characters consumed. -/
def tryMatch1 (prevRev s : List Char) : Option ((List Char × List Char) × Nat) :=
  match s.head? with
  | none => none
  | some c =>
    if !(isAbbrChar c && wordBoundaryAt prevRev c) then none
    else
      let (cls, r1) := takeRun isAbbrChar s
      if cls.length < 2 then none
      else
        let (optS, r2) := optionalS r1
        let r3 := r2.dropWhile pyIsSpace
        match r3.head? with
        | some '(' =>
          let (content, r5) := takeRun (fun c => c != ')') r3.tail
          if content.isEmpty then none
          else
            match r5.head? with
            | some ')' => some ((cls ++ optS, content), s.length - r5.tail.length)
            | _ => none
        | _ => none

/-- Pattern 2, `\(([A-Z&]{2,}[sS]?)[^)]*\)`: returns (group 1, the last 160
characters of text before the `(`) and the characters consumed. -/
def tryMatch2 (prevRev s : List Char) : Option ((List Char × List Char) × Nat) :=
  match s.head? with
  | some '(' =>
    let (cls, r1) := takeRun isAbbrChar s.tail
    if cls.length < 2 then none
    else
      let (optS, r2) := optionalS r1
      let (_, r4) := takeRun (fun c => c != ')') r2
      match r4.head? with
      | some ')' =>
        some ((cls ++ optS, (prevRev.take 160).reverse), s.length - r4.tail.length)
      | _ => none
  | _ => none

/-! ## The result mapping and `extract_abbreviation_pairs` -/

/-- The result mapping, in insertion order. -/
abbrev Dict := List (List Char × List Char)

/-- `abbr in abbr_dict`. -/
def dictContains (d : Dict) (k : List Char) : Bool :=
  d.any (fun kv => kv.1 == k)

/-- `abbr_dict[abbr] = v` on an absent key: append the binding. -/
def dictInsert (d : Dict) (k v : List Char) : Dict :=
  d ++ [(k, v)]

/-- Lookup in the result mapping. -/
def dictGet (d : Dict) (k : List Char) : Option (List Char) :=
  (d.find? (fun kv => kv.1 == k)).map (fun kv => kv.2)

/-- The keys of a result mapping, in insertion order. -/
def dictKeys (d : Dict) : List (List Char) := d.map Prod.fst

/-- One pass-0a match (digit-coded long-to-short): insert the absent key
`group 3` with the normalized `group 1` phrase. -/
def pass0aStep (d : Dict) (g : List Char × List Char) : Dict :=
  if dictContains d g.2 then d
  else dictInsert d g.2 (normalize_phrase_caps g.1)

/-- Pass 0a (digit-coded long-to-short). -/
def runPass0a (text : List Char) (d : Dict) : Dict :=
  (finditerP tryMatch0a (text.length + 1) [] text).foldl pass0aStep d

/-- One pass-0b match (digit-coded short-to-long): insert the absent key
`group 1` with the normalized, punctuation-trimmed parenthetical content. -/
def pass0bStep (d : Dict) (g : List Char × List Char) : Dict :=
  if dictContains d g.1 then d
  else dictInsert d g.1 (normalize_phrase_caps (pyStrip phraseStripChars g.2))

/-- Pass 0b (digit-coded short-to-long). -/
def runPass0b (text : List Char) (d : Dict) : Dict :=
  (finditerP tryMatch0b (text.length + 1) [] text).foldl pass0bStep d

/-- One pass-1 match (abbreviation first): insert the absent key whose
trimmed parenthetical phrase passes the phrase matcher. -/
def pass1Step (d : Dict) (g : List Char × List Char) : Dict :=
  if dictContains d g.1 then d
  else
    let phrase_raw := pyStrip phraseStripChars g.2
    if phrase_matches_abbr (pySplit phrase_raw) g.1 then
      dictInsert d g.1 (normalize_phrase_caps phrase_raw)
    else d

/-- Pass 1 (abbreviation first). -/
def runPass1 (text : List Char) (d : Dict) : Dict :=
  (finditerP tryMatch1 (text.length + 1) [] text).foldl pass1Step d

/-- The suffix loop of pass 2: iterate starting indices upward, overwriting
the best phrase and best words on every successful match. -/
def pass4Loop (words : List (List Char)) (abbr : List Char) :
    Option (List Char) × Option (List (List Char)) :=
  (List.range words.length).foldl
    (fun best start =>
      let cand := words.drop start
      if phrase_matches_abbr cand abbr then
        (some (pyStrip phraseStripChars (List.intercalate [' '] cand)), some cand)
      else best)
    (none, none)

/-- The sentence separators `[.!?;:]` of pass 2. -/
def sentenceSeps : List Char := ['.', '!', '?', ';', ':']

/-- One pass-2 match: look back through the window, pick the best suffix,
optionally truncate two-letter ampersand forms, and insert. -/
def pass2Step (d : Dict) (g : List Char × List Char) : Dict :=
  let abbr := g.1
  if dictContains d abbr then d
  else
    let window := collapseWs g.2
    let fragment := stripWs ((splitOnPred (fun c => sentenceSeps.contains c) window).getLastD [])
    if fragment.isEmpty then d
    else
      let words0 := pySplit fragment
      let words := if 20 < words0.length then words0.drop (words0.length - 20) else words0
      match pass4Loop words abbr with
      | (some bp, bw) =>
        if bp.isEmpty then d
        else
          let letters_only := abbr.filter Char.isAlpha
          let bp' :=
            if abbr.contains '&' ∧ letters_only.length = 2 ∧ bw.isSome then
              pyStrip phraseStripChars
                (List.intercalate [' ']
                  (truncate_words_for_ampersand (bw.getD []) letters_only))
            else bp
          dictInsert d abbr (normalize_phrase_caps bp')
      | (none, _) => d

/-- Pass 2 (long-form first). -/
def runPass2 (text : List Char) (d : Dict) : Dict :=
  (finditerP tryMatch2 (text.length + 1) [] text).foldl pass2Step d

/-- `extract_abbreviation_pairs(text)`: the four passes in their fixed order. -/
def extract_abbreviation_pairs (text : List Char) : Dict :=
  runPass2 text (runPass1 text (runPass0b text (runPass0a text [])))

/-! ## Concrete inputs used by the claims -/

/-- The text of spec Example 4. -/
def exampleIM : List Char :=
  "The organization uses Intramuscular injection (IM) routinely.".toList

/-- The text of spec Example 2. -/
def exampleIPC : List Char := "4-digit IPC (IPC4)".toList

/-- A text whose long-form-first pass accepts the key `&&` (two ampersands,
no letters): the anchor classes admit ampersands in place of letters. -/
def exampleAmpAmp : List Char := "x&& (and)".toList

/-- The phrase `x's's` (apostrophes written by code point). -/
def examplePoss : List Char := ['x', quoteChar, 's', quoteChar, 's']

/-! ## General helper lemmas -/

/-! ## Character-level lemmas about `Char.toUpper` and `Char.toLower` -/

theorem toNat_ofNat_valid {n : Nat} (h : n.isValidChar) : (Char.ofNat n).toNat = n := by
  rw [Char.ofNat, dif_pos h]
  rfl

theorem toUpper_toNat (c : Char) :
    c.toUpper.toNat = if 97 ≤ c.toNat ∧ c.toNat ≤ 122 then c.toNat - 32 else c.toNat := by
  unfold Char.toUpper
  dsimp only
  split
  · next hcond =>
    have hv : (c.toNat - 32).isValidChar := by
      have := hcond.1; have := hcond.2
      left
      omega
    rw [toNat_ofNat_valid hv]
  · rfl

theorem toLower_toNat (c : Char) :
    c.toLower.toNat = if 65 ≤ c.toNat ∧ c.toNat ≤ 90 then c.toNat + 32 else c.toNat := by
  unfold Char.toLower
  dsimp only
  split
  · next hcond =>
    have hv : (c.toNat + 32).isValidChar := by
      have := hcond.1; have := hcond.2
      left
      omega
    rw [toNat_ofNat_valid hv]
  · rfl

theorem char_eq_iff_toNat {a b : Char} : a = b ↔ a.toNat = b.toNat := by
  constructor
  · intro h; rw [h]
  · intro h
    exact Char.ext (UInt32.ext h)

theorem isLower_iff_toNat (c : Char) : c.isLower = true ↔ 97 ≤ c.toNat ∧ c.toNat ≤ 122 := by
  simp only [Char.isLower, Bool.and_eq_true, decide_eq_true_eq]
  exact Iff.rfl

theorem isUpper_iff_toNat (c : Char) : c.isUpper = true ↔ 65 ≤ c.toNat ∧ c.toNat ≤ 90 := by
  simp only [Char.isUpper, Bool.and_eq_true, decide_eq_true_eq]
  exact Iff.rfl

theorem isDigit_iff_toNat (c : Char) : c.isDigit = true ↔ 48 ≤ c.toNat ∧ c.toNat ≤ 57 := by
  simp only [Char.isDigit, Bool.and_eq_true, decide_eq_true_eq]
  exact Iff.rfl

theorem beq_char_iff {a b : Char} : (a == b) = true ↔ a.toNat = b.toNat := by
  rw [beq_iff_eq, char_eq_iff_toNat]

theorem isAlpha_iff_toNat (c : Char) :
    c.isAlpha = true ↔ (65 ≤ c.toNat ∧ c.toNat ≤ 90) ∨ (97 ≤ c.toNat ∧ c.toNat ≤ 122) := by
  simp only [Char.isAlpha, Bool.or_eq_true, isUpper_iff_toNat, isLower_iff_toNat]

theorem isAlphanum_iff_toNat (c : Char) :
    c.isAlphanum = true ↔ (65 ≤ c.toNat ∧ c.toNat ≤ 90) ∨ (97 ≤ c.toNat ∧ c.toNat ≤ 122) ∨
      (48 ≤ c.toNat ∧ c.toNat ≤ 57) := by
  simp only [Char.isAlphanum, Bool.or_eq_true, isAlpha_iff_toNat, isDigit_iff_toNat, or_assoc]

theorem toUpper_toUpper (c : Char) : c.toUpper.toUpper = c.toUpper := by
  rw [char_eq_iff_toNat, toUpper_toNat c.toUpper, toUpper_toNat c]
  split_ifs <;> omega

theorem toLower_toLower (c : Char) : c.toLower.toLower = c.toLower := by
  rw [char_eq_iff_toNat, toLower_toNat c.toLower, toLower_toNat c]
  split_ifs <;> omega

theorem toLower_toUpper (c : Char) : c.toUpper.toLower = c.toLower := by
  rw [char_eq_iff_toNat, toLower_toNat c.toUpper, toUpper_toNat c, toLower_toNat c]
  split_ifs <;> omega

theorem isAlpha_toLower (c : Char) : c.toLower.isAlpha = c.isAlpha := by
  rw [Bool.eq_iff_iff, isAlpha_iff_toNat, isAlpha_iff_toNat, toLower_toNat]
  split_ifs <;> omega

theorem isAlpha_toUpper (c : Char) : c.toUpper.isAlpha = c.isAlpha := by
  rw [Bool.eq_iff_iff, isAlpha_iff_toNat, isAlpha_iff_toNat, toUpper_toNat]
  split_ifs <;> omega

theorem isLower_toUpper_false (c : Char) : c.toUpper.isLower = false := by
  rw [← Bool.not_eq_true, isLower_iff_toNat, toUpper_toNat]
  split_ifs <;> omega


/-- A fold that overwrites its accumulator on every element satisfying `p`
returns the image of the last such element. -/
theorem foldl_last_match {α β : Type} (p : α → Bool) (g : α → β) :
    ∀ (l : List α) (init : β),
      l.foldl (fun b x => if p x then g x else b) init =
        match l.reverse.find? p with
        | some x => g x
        | none => init := by
  intro l
  induction l with
  | nil => intro init; rfl
  | cons x l ih =>
    intro init
    simp only [List.foldl_cons, ih, List.reverse_cons, List.find?_append]
    cases hl : l.reverse.find? p with
    | some y => simp
    | none =>
      cases hp : p x <;> simp [List.find?, hp]

/-- On the reversed range, `find?` returns the largest index satisfying `p`. -/
theorem find?_reverse_range (p : Nat → Bool) :
    ∀ (n i : Nat), i < n → p i = true →
      (∀ j, i < j → j < n → p j = false) →
      (List.range n).reverse.find? p = some i := by
  intro n
  induction n with
  | zero => intro i hi; omega
  | succ k ih =>
    intro i hi hp hmax
    rw [List.range_succ, List.reverse_append]
    simp only [List.reverse_cons, List.reverse_nil, List.nil_append,
      List.cons_append, List.find?]
    by_cases hik : i = k
    · subst hik; rw [hp]
    · have hk : p k = false := hmax k (by omega) (by omega)
      rw [hk]
      exact ih i (by omega) hp (fun j h1 h2 => hmax j h1 (by omega))

/-! ## Claim C10 -/

/-- The scan of the ampersand truncator only ever copies the word at hand or
stops, so it returns a prefix of its input. -/
theorem truncateGo_isTake (lo : List Char) :
    ∀ (ws : List (List Char)) (col : List Char),
      ∃ k, truncateGo lo ws col = ws.take k := by
  intro ws
  induction ws with
  | nil => exact fun _ => ⟨0, rfl⟩
  | cons w rest ih =>
    intro col
    simp only [truncateGo]
    by_cases h1 : (pyStrip punctChars w).isEmpty
    · simp only [h1, if_true]
      obtain ⟨k, hk⟩ := ih col
      exact ⟨k + 1, by simp [hk]⟩
    · simp only [if_neg h1]
      by_cases h2 : List.map Char.toLower (pyStrip punctChars w) ∈ PREPS ∨
          List.map Char.toLower (pyStrip punctChars w) = "and".toList
      · simp only [if_pos h2]
        obtain ⟨k, hk⟩ := ih col
        exact ⟨k + 1, by simp [hk]⟩
      · simp only [if_neg h2]
        cases hfa : first_alpha_char (pyStrip punctChars w) with
        | none =>
          simp only [hfa]
          obtain ⟨k, hk⟩ := ih col
          exact ⟨k + 1, by simp [hk]⟩
        | some fa =>
          simp only [hfa]
          split
          · split
            · exact ⟨1, by simp⟩
            · obtain ⟨k, hk⟩ := ih (col ++ [fa])
              exact ⟨k + 1, by simp [hk]⟩
          · exact ⟨0, rfl⟩

/-- C10: for every word list and every target letter string,
`truncate_words_for_ampersand` returns a contiguous initial segment (prefix)
of the input word list, each retained word identical to the corresponding
input word — it never reorders, rewrites, or skips over a word. -/
theorem C10_truncate_returns_prefix (words : List (List Char)) (letters_only : List Char) :
    ∃ k, truncate_words_for_ampersand words letters_only = words.take k :=
  truncateGo_isTake letters_only words []

/-! ## Claim C5 -/

/-- C5 counterexample: the scanned word's first alphabetic character is
compared against the target letter without uppercasing, so for the lowercase
words `["research", "and", "development"]` and target `"RD"` the function
stops at once and returns the empty list, not the full three-word sequence. -/
theorem C5_counterexample :
    truncate_words_for_ampersand
        (["research", "and", "development"].map String.toList) "RD".toList = [] ∧
    truncate_words_for_ampersand
        (["research", "and", "development"].map String.toList) "RD".toList ≠
      ["research", "and", "development"].map String.toList := by
  constructor
  · decide
  · decide

/-- C5 amended: the first alphabetic character is compared as-is (without
uppercasing) against the next target letter, so the match is case-sensitive;
for the title-cased words `["Research", "and", "Development"]` and target
`"RD"` the function returns the full three-word sequence. -/
theorem C5_amended_case_sensitive :
    truncate_words_for_ampersand
        (["Research", "and", "Development"].map String.toList) "RD".toList =
      ["Research", "and", "Development"].map String.toList := by
  decide

/-! ## Claim C1 -/

/-- C1 counterexample: on spec Example 4 the extractor does **not** produce
the pair `IM ↦ Intramuscular`; the early exit of `phrase_matches_abbr` (two
base initials `I`,`I` for the suffix `Intramuscular injection` already reach
the length of `IM`) blocks the prefix-splitting pass, and the single word
`Intramuscular` is never a candidate suffix because `injection` follows it. -/
theorem C1_counterexample :
    ¬ dictGet (extract_abbreviation_pairs exampleIM) "IM".toList =
        some "Intramuscular".toList := by
  decide

/-- C1 amended: on spec Example 4 the extractor returns the empty mapping —
in particular it contains no key `IM`. -/
theorem C1_amended_no_pair : extract_abbreviation_pairs exampleIM = [] := by
  decide

/-! ## Claim C4 -/

/-- C4 counterexample: on `"4-digit IPC (IPC4)"` the recorded long form is
not `"4-Digit IPC"`: since the core `4-digit` contains a digit, the
normalizer keeps it verbatim instead of title-casing it around the hyphen. -/
theorem C4_counterexample :
    ¬ dictGet (extract_abbreviation_pairs exampleIPC) "IPC4".toList =
        some "4-Digit IPC".toList := by
  decide

/-- C4 amended: the digit-coded long-to-short pass supplies the pair, but the
value keeps the source casing of the digit-bearing word: the mapping is
exactly `{"IPC4": "4-digit IPC"}`. -/
theorem C4_amended_value :
    extract_abbreviation_pairs exampleIPC =
      [("IPC4".toList, "4-digit IPC".toList)] := by
  decide

/-! ## Claim C7, counterexample part -/

/-- C7 counterexample: `normalize_phrase_caps` is not idempotent.  On the
phrase `x's's` the first pass yields `X's` (only the final possessive is
strippable), and a second pass strips the newly exposed possessive, yielding
`X`. -/
theorem C7_counterexample :
    normalize_phrase_caps (normalize_phrase_caps examplePoss) ≠
      normalize_phrase_caps examplePoss := by
  decide

/-! ## Claim C2 -/

/-- C2: in pass 4, among all suffixes of the lookback word list that satisfy
the phrase matcher, the one recorded is the suffix from the largest starting
index that still matches (the shortest matching trailing word sequence): the
loop iterates starting indices upward and overwrites the best match on every
success without early exit. -/
theorem C2_pass4_keeps_largest_start (words : List (List Char)) (abbr : List Char)
    (i : Nat) (hi : i < words.length)
    (hm : phrase_matches_abbr (words.drop i) abbr = true)
    (hmax : ∀ j, i < j → j < words.length →
      phrase_matches_abbr (words.drop j) abbr = false) :
    pass4Loop words abbr =
      (some (pyStrip phraseStripChars (List.intercalate [' '] (words.drop i))),
       some (words.drop i)) := by
  unfold pass4Loop
  rw [foldl_last_match (fun start => phrase_matches_abbr (words.drop start) abbr)
    (fun start =>
      (some (pyStrip phraseStripChars (List.intercalate [' '] (words.drop start))),
       some (words.drop start)))]
  rw [find?_reverse_range _ words.length i hi hm hmax]

/-- C2 witness: on the two-word list `["Atrial", "Fibrillation"]` with
abbreviation `AF`, only the full suffix (index 0) matches, and the loop
records it. -/
theorem C2_witness :
    pass4Loop (["Atrial", "Fibrillation"].map String.toList) "AF".toList =
      (some "Atrial Fibrillation".toList,
       some (["Atrial", "Fibrillation"].map String.toList)) := by
  have h := C2_pass4_keeps_largest_start
    (["Atrial", "Fibrillation"].map String.toList) "AF".toList 0
    (by decide) (by decide)
    (by
      intro j h1 h2
      simp only [List.length_map, List.length_cons, List.length_nil] at h2
      have hj : j = 1 := by omega
      subst hj
      decide)
  simpa using h

/-! ## Claim C6 -/

/-- A generic fold-invariant lemma. -/
theorem foldl_invariant {α β : Type} (step : β → α → β) (P : β → Prop)
    (h : ∀ d g, P d → P (step d g)) :
    ∀ (gs : List α) (d : β), P d → P (gs.foldl step d) := by
  intro gs
  induction gs with
  | nil => exact fun d hd => hd
  | cons g gs ih => exact fun d hd => ih (step d g) (h d g hd)

/-- An existing binding survives an append. -/
theorem dictGet_insert_preserve {d : Dict} {k' v' : List Char} (k v : List Char)
    (h : dictGet d k' = some v') : dictGet (dictInsert d k v) k' = some v' := by
  unfold dictGet dictInsert at *
  rw [List.find?_append]
  cases hf : d.find? (fun kv => kv.1 == k') with
  | none => rw [hf] at h; simp at h
  | some kv => rw [hf] at h; simpa using h

/-- An absent key is really not among the keys. -/
theorem not_mem_keys_of_not_contains {d : Dict} {k : List Char}
    (h : dictContains d k = false) : k ∉ dictKeys d := by
  intro hmem
  unfold dictKeys at hmem
  obtain ⟨kv, hkv, hfst⟩ := List.mem_map.mp hmem
  unfold dictContains at h
  rw [List.any_eq_false] at h
  have hne : ¬ kv.1 = k := by simpa using h kv hkv
  exact hne hfst

/-- Appending a fresh key preserves key distinctness. -/
theorem nodup_insert {d : Dict} {k v : List Char}
    (hd : (dictKeys d).Nodup) (h : dictContains d k = false) :
    (dictKeys (dictInsert d k v)).Nodup := by
  unfold dictKeys dictInsert
  rw [List.map_append, List.nodup_append]
  refine ⟨hd, List.nodup_singleton k, ?_⟩
  intro x hx hxk
  simp only [List.map_cons, List.map_nil, List.mem_singleton] at hxk
  subst hxk
  exact not_mem_keys_of_not_contains h hx

/-- Pass-0a steps preserve key distinctness. -/
theorem pass0aStep_nodup (d : Dict) (g : List Char × List Char)
    (h : (dictKeys d).Nodup) : (dictKeys (pass0aStep d g)).Nodup := by
  unfold pass0aStep
  split
  · exact h
  · next hc =>
    have hc' : dictContains d g.2 = false := by simpa using hc
    exact nodup_insert h hc'

/-- Pass-0b steps preserve key distinctness. -/
theorem pass0bStep_nodup (d : Dict) (g : List Char × List Char)
    (h : (dictKeys d).Nodup) : (dictKeys (pass0bStep d g)).Nodup := by
  unfold pass0bStep
  split
  · exact h
  · next hc =>
    have hc' : dictContains d g.1 = false := by simpa using hc
    exact nodup_insert h hc'

/-- Pass-1 steps preserve key distinctness. -/
theorem pass1Step_nodup (d : Dict) (g : List Char × List Char)
    (h : (dictKeys d).Nodup) : (dictKeys (pass1Step d g)).Nodup := by
  unfold pass1Step
  dsimp only
  split
  · exact h
  · next hc =>
    have hc' : dictContains d g.1 = false := by simpa using hc
    split
    · exact nodup_insert h hc'
    · exact h

/-- Pass-2 steps preserve key distinctness. -/
theorem pass2Step_nodup (d : Dict) (g : List Char × List Char)
    (h : (dictKeys d).Nodup) : (dictKeys (pass2Step d g)).Nodup := by
  unfold pass2Step
  dsimp only
  split
  · exact h
  · next hc =>
    have hc' : dictContains d g.1 = false := by simpa using hc
    split
    · exact h
    · split
      · split
        · exact h
        · exact nodup_insert h hc'
      · exact h

/-- Pass-0a steps keep every existing binding. -/
theorem pass0aStep_get (d : Dict) (g : List Char × List Char)
    {k0 v0 : List Char} (h : dictGet d k0 = some v0) :
    dictGet (pass0aStep d g) k0 = some v0 := by
  unfold pass0aStep
  split
  · exact h
  · exact dictGet_insert_preserve _ _ h

/-- Pass-0b steps keep every existing binding. -/
theorem pass0bStep_get (d : Dict) (g : List Char × List Char)
    {k0 v0 : List Char} (h : dictGet d k0 = some v0) :
    dictGet (pass0bStep d g) k0 = some v0 := by
  unfold pass0bStep
  split
  · exact h
  · exact dictGet_insert_preserve _ _ h

/-- Pass-1 steps keep every existing binding. -/
theorem pass1Step_get (d : Dict) (g : List Char × List Char)
    {k0 v0 : List Char} (h : dictGet d k0 = some v0) :
    dictGet (pass1Step d g) k0 = some v0 := by
  unfold pass1Step
  dsimp only
  split
  · exact h
  · split
    · exact dictGet_insert_preserve _ _ h
    · exact h

/-- Pass-2 steps keep every existing binding. -/
theorem pass2Step_get (d : Dict) (g : List Char × List Char)
    {k0 v0 : List Char} (h : dictGet d k0 = some v0) :
    dictGet (pass2Step d g) k0 = some v0 := by
  unfold pass2Step
  dsimp only
  split
  · exact h
  · split
    · exact h
    · split
      · split
        · exact h
        · exact dictGet_insert_preserve _ _ h
      · exact h

/-- C6: every abbreviation key appears at most once in the result mapping
(keys are pairwise distinct and never overwritten), and any binding already
produced by the two digit-coded passes survives unchanged into the final
mapping — so a value resolvable by a digit-coded pass always comes from that
pass. -/
theorem C6_keys_once_digit_priority (text : List Char) :
    ((extract_abbreviation_pairs text).map Prod.fst).Nodup ∧
    ∀ k v, dictGet (runPass0b text (runPass0a text [])) k = some v →
      dictGet (extract_abbreviation_pairs text) k = some v := by
  constructor
  · have h0 : (dictKeys ([] : Dict)).Nodup := List.nodup_nil
    have h1 := foldl_invariant pass0aStep _ pass0aStep_nodup
      (finditerP tryMatch0a (text.length + 1) [] text) [] h0
    have h2 := foldl_invariant pass0bStep _ pass0bStep_nodup
      (finditerP tryMatch0b (text.length + 1) [] text) _ h1
    have h3 := foldl_invariant pass1Step _ pass1Step_nodup
      (finditerP tryMatch1 (text.length + 1) [] text) _ h2
    exact foldl_invariant pass2Step _ pass2Step_nodup
      (finditerP tryMatch2 (text.length + 1) [] text) _ h3
  · intro k v hkv
    have h3 := foldl_invariant pass1Step (fun d => dictGet d k = some v)
      (fun d g hd => pass1Step_get d g hd)
      (finditerP tryMatch1 (text.length + 1) [] text) _ hkv
    exact foldl_invariant pass2Step (fun d => dictGet d k = some v)
      (fun d g hd => pass2Step_get d g hd)
      (finditerP tryMatch2 (text.length + 1) [] text) _ h3

/-- C6 witness: on `"4-digit IPC (IPC4)"` the digit-coded passes bind
`IPC4 ↦ 4-digit IPC` and the final mapping keeps exactly that binding. -/
theorem C6_witness :
    dictGet (runPass0b exampleIPC (runPass0a exampleIPC [])) "IPC4".toList =
        some "4-digit IPC".toList ∧
    dictGet (extract_abbreviation_pairs exampleIPC) "IPC4".toList =
        some "4-digit IPC".toList := by
  refine ⟨by decide, ?_⟩
  exact (C6_keys_once_digit_priority exampleIPC).2 _ _ (by decide)

/-! ## Claim C9 -/

/-- Every payload `finditerP` emits comes from a successful match attempt. -/
theorem finditerP_all {α : Type} (tryM : List Char → List Char → Option (α × Nat))
    (P : α → Prop) (h : ∀ pr s g n, tryM pr s = some (g, n) → P g) :
    ∀ (fuel : Nat) (prevRev s : List Char) (g : α),
      g ∈ finditerP tryM fuel prevRev s → P g := by
  intro fuel
  induction fuel with
  | zero => intro pr s g hg; simp [finditerP] at hg
  | succ f ih =>
    intro pr s g hg
    cases s with
    | nil => simp [finditerP] at hg
    | cons c rest =>
      simp only [finditerP] at hg
      cases htm : tryM pr (c :: rest) with
      | none =>
        rw [htm] at hg
        exact ih _ _ _ hg
      | some gn =>
        rw [htm] at hg
        simp only [List.mem_cons] at hg
        cases hg with
        | inl heq => exact heq ▸ h pr (c :: rest) gn.1 gn.2 (by rw [htm])
        | inr hmem => exact ih _ _ _ hmem

/-- A successful pattern-0a match has a key of at least two characters
(its `[A-Z]{2,}` run alone has at least two). -/
theorem tryMatch0a_key_len (pr s : List Char) (g : List Char × List Char) (n : Nat)
    (h : tryMatch0a pr s = some (g, n)) : 2 ≤ g.2.length := by
  unfold tryMatch0a at h
  repeat' first
    | split at h
    | dsimp only at h
  all_goals
    first
      | exact Option.noConfusion h
      | (simp only [Option.some.injEq, Prod.mk.injEq] at h
         obtain ⟨hg, hn⟩ := h
         rw [← hg]
         dsimp only
         simp only [List.length_append]
         omega)

/-- A successful pattern-0b match has a key of at least two characters. -/
theorem tryMatch0b_key_len (pr s : List Char) (g : List Char × List Char) (n : Nat)
    (h : tryMatch0b pr s = some (g, n)) : 2 ≤ g.1.length := by
  unfold tryMatch0b at h
  repeat' first
    | split at h
    | dsimp only at h
  all_goals
    first
      | exact Option.noConfusion h
      | (simp only [Option.some.injEq, Prod.mk.injEq] at h
         obtain ⟨hg, hn⟩ := h
         rw [← hg]
         dsimp only
         simp only [List.length_append]
         omega)

/-- A successful pattern-1 match has a key of at least two characters. -/
theorem tryMatch1_key_len (pr s : List Char) (g : List Char × List Char) (n : Nat)
    (h : tryMatch1 pr s = some (g, n)) : 2 ≤ g.1.length := by
  unfold tryMatch1 at h
  repeat' first
    | split at h
    | dsimp only at h
  all_goals
    first
      | exact Option.noConfusion h
      | (simp only [Option.some.injEq, Prod.mk.injEq] at h
         obtain ⟨hg, hn⟩ := h
         rw [← hg]
         dsimp only
         simp only [List.length_append]
         omega)

/-- A successful pattern-2 match has a key of at least two characters. -/
theorem tryMatch2_key_len (pr s : List Char) (g : List Char × List Char) (n : Nat)
    (h : tryMatch2 pr s = some (g, n)) : 2 ≤ g.1.length := by
  unfold tryMatch2 at h
  repeat' first
    | split at h
    | dsimp only at h
  all_goals
    first
      | exact Option.noConfusion h
      | (simp only [Option.some.injEq, Prod.mk.injEq] at h
         obtain ⟨hg, hn⟩ := h
         rw [← hg]
         dsimp only
         simp only [List.length_append]
         omega)

/-- Key-length bound survives an insertion with a long-enough key. -/
theorem keys_bound_insert {d : Dict} {k v : List Char}
    (hd : ∀ k' ∈ dictKeys d, 2 ≤ k'.length) (hk : 2 ≤ k.length) :
    ∀ k' ∈ dictKeys (dictInsert d k v), 2 ≤ k'.length := by
  intro k' hk'
  unfold dictKeys dictInsert at hk'
  rw [List.map_append, List.mem_append] at hk'
  cases hk' with
  | inl hmem => exact hd k' hmem
  | inr hmem =>
    simp only [List.map_cons, List.map_nil, List.mem_singleton] at hmem
    exact hmem ▸ hk

/-- C9 counterexample: for the input `"x&& (and)"` the result mapping has the
key `&&`, whose letters-only form is empty — the anchor classes accept two
ampersands with no letter at all, so the claimed length bound fails. -/
theorem C9_counterexample :
    "&&".toList ∈ dictKeys (extract_abbreviation_pairs exampleAmpAmp) ∧
    (lettersOnly "&&".toList).length = 0 := by
  constructor
  · decide
  · decide

/-- A fold-invariant lemma that also provides membership of each element. -/
theorem foldl_invariant_mem {α β : Type} (step : β → α → β) (P : β → Prop)
    (gs : List α) (h : ∀ d g, g ∈ gs → P d → P (step d g)) :
    ∀ (d : β), P d → P (gs.foldl step d) := by
  induction gs with
  | nil => exact fun d hd => hd
  | cons g gs ih =>
    intro d hd
    exact ih (fun d' g' hg' => h d' g' (List.mem_cons_of_mem _ hg'))
      (step d g) (h d g (List.mem_cons_self _ _) hd)

/-- C9 amended: every key of the result mapping has at least two characters
(the four anchor patterns each require at least two characters from their
leading class), though its letters-only form may be empty (e.g. `&&`). -/
theorem C9_amended_keys_length (text : List Char) (k : List Char)
    (hk : k ∈ dictKeys (extract_abbreviation_pairs text)) : 2 ≤ k.length := by
  have h0 : ∀ k' ∈ dictKeys ([] : Dict), 2 ≤ k'.length := by
    simp [dictKeys]
  have h1 : ∀ k' ∈ dictKeys (runPass0a text []), 2 ≤ k'.length := by
    unfold runPass0a
    refine foldl_invariant_mem pass0aStep (fun d => ∀ k' ∈ dictKeys d, 2 ≤ k'.length) _ ?_ [] h0
    intro d g hg hd k' hk'
    have hglen : 2 ≤ g.2.length :=
      finditerP_all tryMatch0a (fun g => 2 ≤ g.2.length) tryMatch0a_key_len
        _ _ _ _ hg
    unfold pass0aStep at hk'
    split at hk'
    · exact hd k' hk'
    · exact keys_bound_insert hd hglen k' hk'
  have h2 : ∀ k' ∈ dictKeys (runPass0b text (runPass0a text [])), 2 ≤ k'.length := by
    unfold runPass0b
    refine foldl_invariant_mem pass0bStep (fun d => ∀ k' ∈ dictKeys d, 2 ≤ k'.length) _ ?_ _ h1
    intro d g hg hd k' hk'
    have hglen : 2 ≤ g.1.length :=
      finditerP_all tryMatch0b (fun g => 2 ≤ g.1.length) tryMatch0b_key_len
        _ _ _ _ hg
    unfold pass0bStep at hk'
    split at hk'
    · exact hd k' hk'
    · exact keys_bound_insert hd hglen k' hk'
  have h3 : ∀ k' ∈ dictKeys (runPass1 text (runPass0b text (runPass0a text []))),
      2 ≤ k'.length := by
    unfold runPass1
    refine foldl_invariant_mem pass1Step (fun d => ∀ k' ∈ dictKeys d, 2 ≤ k'.length) _ ?_ _ h2
    intro d g hg hd k' hk'
    have hglen : 2 ≤ g.1.length :=
      finditerP_all tryMatch1 (fun g => 2 ≤ g.1.length) tryMatch1_key_len
        _ _ _ _ hg
    unfold pass1Step at hk'
    dsimp only at hk'
    split at hk'
    · exact hd k' hk'
    · split at hk'
      · exact keys_bound_insert hd hglen k' hk'
      · exact hd k' hk'
  have h4 : ∀ k' ∈ dictKeys (extract_abbreviation_pairs text), 2 ≤ k'.length := by
    unfold extract_abbreviation_pairs runPass2
    refine foldl_invariant_mem pass2Step (fun d => ∀ k' ∈ dictKeys d, 2 ≤ k'.length) _ ?_ _ h3
    intro d g hg hd k' hk'
    have hglen : 2 ≤ g.1.length :=
      finditerP_all tryMatch2 (fun g => 2 ≤ g.1.length) tryMatch2_key_len
        _ _ _ _ hg
    unfold pass2Step at hk'
    dsimp only at hk'
    split at hk'
    · exact hd k' hk'
    · split at hk'
      · exact hd k' hk'
      · split at hk'
        · split at hk'
          · exact hd k' hk'
          · exact keys_bound_insert hd hglen k' hk'
        · exact hd k' hk'
  exact h4 k hk

/-- C9 amended witness: on `"x&& (and)"` the key `&&` is in the mapping and
indeed has two characters. -/
theorem C9_witness : 2 ≤ ("&&".toList).length :=
  C9_amended_keys_length exampleAmpAmp "&&".toList (by decide)

/-! ## Claim C3 -/

/-- `isPrefixOf` gives an explicit decomposition. -/
theorem isPrefixOf_exists_append :
    ∀ {l₁ l₂ : List Char}, l₁.isPrefixOf l₂ = true → ∃ t, l₂ = l₁ ++ t := by
  intro l₁
  induction l₁ with
  | nil => exact fun h => ⟨_, rfl⟩
  | cons a as ih =>
    intro l₂ h
    cases l₂ with
    | nil => simp [List.isPrefixOf] at h
    | cons b bs =>
      simp only [List.isPrefixOf, Bool.and_eq_true, beq_iff_eq] at h
      obtain ⟨t, ht⟩ := ih h.2
      exact ⟨t, by simp [ht, h.1]⟩

/-- Every entry of `PREFIXES` is nonempty and starts with a letter. -/
theorem PREFIXES_head_alpha :
    ∀ pref ∈ PREFIXES, ∃ c cs, pref = c :: cs ∧ c.isAlpha = true := by
  intro pref hp
  have hall : PREFIXES.all
      (fun pref => !pref.isEmpty && (pref.headD ' ').isAlpha) = true := by decide
  rw [List.all_eq_true] at hall
  have h := hall pref hp
  cases pref with
  | nil => simp at h
  | cons c cs =>
    simp only [List.headD_cons, Bool.and_eq_true] at h
    exact ⟨c, cs, rfl, h.2⟩

/-- If a word starts with an alphabetic-headed prefix, its first alphabetic
character is the head of that prefix. -/
theorem first_alpha_char_of_startsWith {p pref : List Char} {c : Char}
    {cs : List Char} (hpre : pref.isPrefixOf p = true) (hc : pref = c :: cs)
    (ha : c.isAlpha = true) : first_alpha_char p = some c := by
  obtain ⟨t, ht⟩ := isPrefixOf_exists_append hpre
  subst ht
  subst hc
  simp [first_alpha_char, List.find?, ha]

/-- The prefix pass contributes the base initial of a sub-part, possibly
followed by one extra root initial. -/
theorem partInitials_decomp (p : List Char) :
    ∃ e, partInitials true p = partInitialBase p ++ e ∧ e.length ≤ 1 := by
  unfold partInitials
  simp only [if_true]
  cases hf : findPref p with
  | none => exact ⟨[], by simp⟩
  | some pref =>
    have hmem : pref ∈ PREFIXES := List.mem_of_find?_eq_some hf
    have hpred := List.find?_some hf
    simp only [Bool.and_eq_true, decide_eq_true_eq] at hpred
    obtain ⟨c, cs, hc, ha⟩ := PREFIXES_head_alpha pref hmem
    have hfa : first_alpha_char p = some c :=
      first_alpha_char_of_startsWith hpred.1 hc ha
    refine ⟨(match first_alpha_char (p.drop pref.length) with
             | some ch => [ch.toUpper]
             | none => []), ?_, ?_⟩
    · subst hc
      simp [partInitialBase, hfa]
    · cases first_alpha_char (p.drop pref.length) <;> simp

/-- Over a list of sub-parts, the prefix pass yields either exactly the base
initials or strictly more of them. -/
theorem flatten_partInitials_rel (parts : List (List Char)) :
    ((parts.map (partInitials true)).flatten = (parts.map (partInitials false)).flatten) ∨
    ((parts.map (partInitials false)).flatten.length <
      (parts.map (partInitials true)).flatten.length) := by
  induction parts with
  | nil => exact Or.inl rfl
  | cons p ps ih =>
    obtain ⟨e, he, helen⟩ := partInitials_decomp p
    have hbase : partInitials false p = partInitialBase p := rfl
    simp only [List.map_cons, List.flatten_cons, he, hbase]
    cases ih with
    | inl heq =>
      cases e with
      | nil => exact Or.inl (by simp [heq])
      | cons x xs =>
        refine Or.inr ?_
        have hlen : ((ps.map (partInitials false)).flatten).length =
            ((ps.map (partInitials true)).flatten).length := by rw [heq]
        simp only [List.length_append, List.length_cons]
        omega
    | inr hlt =>
      refine Or.inr ?_
      simp only [List.length_append]
      omega

/-- The cons equation of `buildInitialsGo`, with its lets unfolded. -/
theorem buildInitialsGo_cons (amp up : Bool) (w : List Char)
    (rest : List (List Char)) :
    buildInitialsGo amp up (w :: rest) =
      (if w.map Char.toLower = "and".toList then
        ((buildInitialsGo amp up rest).1, amp || (buildInitialsGo amp up rest).2)
      else if w.map Char.toLower ∈ PREPS then buildInitialsGo amp up rest
      else (((wordParts w).map (partInitials up)).flatten ++
          (buildInitialsGo amp up rest).1,
        (buildInitialsGo amp up rest).2)) := rfl

/-- Over the cleaned word list, the prefix pass yields the same initials or
strictly more, and the same `has_and` flag. -/
theorem buildInitialsGo_rel (amp : Bool) (ws : List (List Char)) :
    ((buildInitialsGo amp true ws).1 = (buildInitialsGo amp false ws).1 ∨
      (buildInitialsGo amp false ws).1.length < (buildInitialsGo amp true ws).1.length) ∧
    (buildInitialsGo amp true ws).2 = (buildInitialsGo amp false ws).2 := by
  induction ws with
  | nil => exact ⟨Or.inl rfl, rfl⟩
  | cons w rest ih =>
    obtain ⟨ih1, ih2⟩ := ih
    rw [buildInitialsGo_cons amp true, buildInitialsGo_cons amp false]
    by_cases hand : w.map Char.toLower = "and".toList
    · rw [if_pos hand, if_pos hand]
      exact ⟨ih1, by dsimp only; rw [ih2]⟩
    · rw [if_neg hand, if_neg hand]
      by_cases hprep : w.map Char.toLower ∈ PREPS
      · rw [if_pos hprep, if_pos hprep]
        exact ⟨ih1, ih2⟩
      · rw [if_neg hprep, if_neg hprep]
        refine ⟨?_, ih2⟩
        dsimp only
        rcases flatten_partInitials_rel (wordParts w) with heq | hlt
        · rcases ih1 with h1 | h1
          · exact Or.inl (by rw [heq, h1])
          · refine Or.inr ?_
            have hl : ((wordParts w).map (partInitials true)).flatten.length =
                ((wordParts w).map (partInitials false)).flatten.length := by
              rw [heq]
            simp only [List.length_append]
            omega
        · refine Or.inr ?_
          have hle : (buildInitialsGo amp false rest).1.length ≤
              (buildInitialsGo amp true rest).1.length := by
            rcases ih1 with h1 | h1
            · rw [h1]
            · omega
          simp only [List.length_append]
          omega

/-- The same relation for `build_initials` itself. -/
theorem build_initials_rel (words : List (List Char)) (amp : Bool) :
    ((build_initials words amp true).1 = (build_initials words amp false).1 ∨
      (build_initials words amp false).1.length <
        (build_initials words amp true).1.length) ∧
    (build_initials words amp true).2 = (build_initials words amp false).2 :=
  buildInitialsGo_rel amp _

/-- Every accepted candidate string is at most as long as the letters-only
form. -/
theorem candidatesOf_length {lo s : List Char} (h : s ∈ candidatesOf lo) :
    s.length ≤ lo.length := by
  unfold candidatesOf at h
  split at h
  · simp only [List.mem_cons, List.mem_singleton, List.not_mem_nil, or_false] at h
    rcases h with rfl | rfl
    · exact Nat.le_refl _
    · simp [List.length_dropLast]
  · simp only [List.mem_singleton, List.mem_cons, List.not_mem_nil, or_false] at h
    subst h
    exact Nat.le_refl _

/-- A candidate string strictly longer than the letters-only form is rejected
unless the abbreviation is a two-letter ampersand form. -/
theorem checkAccept_false_of_long {lo istr : List Char} {amp has_and : Bool}
    (hlong : lo.length < istr.length)
    (hnot2 : ¬(amp = true ∧ lo.length = 2)) :
    checkAccept lo amp istr has_and = false := by
  unfold checkAccept
  rw [Bool.or_eq_false_iff]
  constructor
  · rw [Bool.and_eq_false_iff]
    left
    rw [decide_eq_false_iff_not]
    intro hmem
    exact absurd (candidatesOf_length hmem) (by omega)
  · rcases Decidable.em (amp = true) with hamp | hamp
    · have hne : lo.length ≠ 2 := fun hl => hnot2 ⟨hamp, hl⟩
      simp [hne]
    · have hfalse : amp = false := by
        cases amp
        · rfl
        · exact absurd rfl hamp
      simp [hfalse]

/-- C3 counterexample: for the words `["subbank", "and", "xyz"]` and the
abbreviation `S&B`, the early exit returns false (base initials `SX` already
reach length 2), but the always-both-passes variant returns true: the prefix
pass builds `SBX` (`sub` + `bank`, then `xyz`), which the two-letter-ampersand
special rule accepts.  So the early exit is not a pure refinement. -/
theorem C3_counterexample :
    phrase_matches_abbr (["subbank", "and", "xyz"].map String.toList)
        "S&B".toList = false ∧
    phrase_matches_abbr_both (["subbank", "and", "xyz"].map String.toList)
        "S&B".toList = true := by
  constructor
  · decide
  · decide

/-- C3 amended: unless the abbreviation contains an ampersand and its
letters-only form has length exactly 2 (the reach of the special ampersand
rule), the early exit is harmless: if the first pass is rejected and already
produced at least as many initials as the letters-only form, the second pass
cannot be accepted either, so `phrase_matches_abbr` agrees with the variant
that always runs both passes. -/
theorem C3_amended_refinement (words : List (List Char)) (abbr : List Char)
    (h : ¬(abbr.contains '&' = true ∧ (lettersOnly abbr).length = 2)) :
    phrase_matches_abbr words abbr = phrase_matches_abbr_both words abbr := by
  obtain ⟨hrel1, hflag⟩ := build_initials_rel words (abbr.contains '&')
  unfold phrase_matches_abbr phrase_matches_abbr_both
  dsimp only
  by_cases hbase : checkAccept (lettersOnly abbr) (abbr.contains '&')
      (build_initials words (abbr.contains '&') false).1
      (build_initials words (abbr.contains '&') false).2 = true
  · rw [if_pos hbase, hbase, Bool.true_or]
  · rw [if_neg hbase]
    have hb : checkAccept (lettersOnly abbr) (abbr.contains '&')
        (build_initials words (abbr.contains '&') false).1
        (build_initials words (abbr.contains '&') false).2 = false := by
      cases hx : checkAccept (lettersOnly abbr) (abbr.contains '&')
          (build_initials words (abbr.contains '&') false).1
          (build_initials words (abbr.contains '&') false).2
      · rfl
      · exact absurd hx hbase
    rw [hb, Bool.false_or]
    by_cases hlen : (lettersOnly abbr).length ≤
        (build_initials words (abbr.contains '&') false).1.length
    · rw [if_pos (decide_eq_true hlen)]
      symm
      rcases hrel1 with heq | hlt
      · rw [heq, hflag]
        exact hb
      · exact checkAccept_false_of_long (by omega) h
    · have hd : decide ((lettersOnly abbr).length ≤
          (build_initials words (abbr.contains '&') false).1.length) = false :=
        decide_eq_false hlen
      rw [if_neg (by rw [hd]; exact Bool.false_ne_true)]

/-- C3 amended witness: an ampersand-free abbreviation where both versions
agree (both reject `AB` against the single word `alpha`). -/
theorem C3_witness :
    phrase_matches_abbr [("alpha".toList)] "AB".toList =
      phrase_matches_abbr_both [("alpha".toList)] "AB".toList :=
  C3_amended_refinement [("alpha".toList)] "AB".toList (by decide)

/-! ## Split/join infrastructure -/

/-- Characters of a `splitOnPred` piece do not satisfy the predicate. -/
theorem splitOnPred_chars {p : Char → Bool} :
    ∀ {s : List Char} {w : List Char}, w ∈ splitOnPred p s → ∀ c ∈ w, p c = false := by
  intro s
  induction s with
  | nil =>
    intro w hw c hc
    simp only [splitOnPred, List.mem_singleton] at hw
    subst hw
    cases hc
  | cons a rest ih =>
    intro w hw c hc
    simp only [splitOnPred] at hw
    split at hw
    · rcases List.mem_cons.mp hw with rfl | hw'
      · cases hc
      · exact ih hw' c hc
    · next hpa =>
      cases hsp : splitOnPred p rest with
      | nil => rw [hsp] at hw; simp at hw; subst hw; rcases List.mem_singleton.mp hc with rfl; simpa using hpa
      | cons v vs =>
        rw [hsp] at hw
        rcases List.mem_cons.mp hw with rfl | hw'
        · rcases List.mem_cons.mp hc with rfl | hc'
          · simpa using hpa
          · exact ih (hsp ▸ List.mem_cons_self v vs) c hc'
        · exact ih (hsp ▸ List.mem_cons_of_mem v hw') c hc
  
/-- Characters of a `splitOnPred` piece are characters of the input. -/
theorem splitOnPred_subset {p : Char → Bool} :
    ∀ {s : List Char} {w : List Char}, w ∈ splitOnPred p s → ∀ c ∈ w, c ∈ s := by
  intro s
  induction s with
  | nil =>
    intro w hw c hc
    simp only [splitOnPred, List.mem_singleton] at hw
    subst hw
    cases hc
  | cons a rest ih =>
    intro w hw c hc
    simp only [splitOnPred] at hw
    split at hw
    · rcases List.mem_cons.mp hw with rfl | hw'
      · cases hc
      · exact List.mem_cons_of_mem a (ih hw' c hc)
    · cases hsp : splitOnPred p rest with
      | nil => rw [hsp] at hw; simp at hw; subst hw; rcases List.mem_singleton.mp hc with rfl; exact List.mem_cons_self _ _
      | cons v vs =>
        rw [hsp] at hw
        rcases List.mem_cons.mp hw with rfl | hw'
        · rcases List.mem_cons.mp hc with rfl | hc'
          · exact List.mem_cons_self _ _
          · exact List.mem_cons_of_mem a (ih (hsp ▸ List.mem_cons_self v vs) c hc')
        · exact List.mem_cons_of_mem a (ih (hsp ▸ List.mem_cons_of_mem v hw') c hc)

/-- Pieces of `pySplit` are nonempty and whitespace-free. -/
theorem pySplit_chars {s w : List Char} (hw : w ∈ pySplit s) :
    w ≠ [] ∧ ∀ c ∈ w, pyIsSpace c = false := by
  unfold pySplit at hw
  rw [List.mem_filter] at hw
  refine ⟨by simpa using hw.2, splitOnPred_chars hw.1⟩

/-- Characters of `pySplit` words are characters of the input. -/
theorem pySplit_subset {s w : List Char} (hw : w ∈ pySplit s) :
    ∀ c ∈ w, c ∈ s := by
  unfold pySplit at hw
  exact splitOnPred_subset (List.mem_filter.mp hw).1

/-- `splitOnPred` over a predicate-free list is the singleton piece. -/
theorem splitOnPred_of_none {p : Char → Bool} :
    ∀ {w : List Char}, (∀ c ∈ w, p c = false) → splitOnPred p w = [w] := by
  intro w
  induction w with
  | nil => intro _; rfl
  | cons c rest ih =>
    intro h
    have hc : p c = false := h c (List.mem_cons_self _ _)
    simp only [splitOnPred, hc, Bool.false_eq_true, if_false]
    rw [ih (fun d hd => h d (List.mem_cons_of_mem c hd))]

/-- `splitOnPred` peels a predicate-free word before a separator. -/
theorem splitOnPred_append_sep {p : Char → Bool} {sep : Char} (hsep : p sep = true) :
    ∀ {w t : List Char}, (∀ c ∈ w, p c = false) →
      splitOnPred p (w ++ sep :: t) = w :: splitOnPred p t := by
  intro w
  induction w with
  | nil =>
    intro t _
    simp [splitOnPred, hsep]
  | cons c rest ih =>
    intro t h
    have hc : p c = false := h c (List.mem_cons_self _ _)
    simp only [List.cons_append, splitOnPred, hc, Bool.false_eq_true, if_false,
      List.append_eq]
    rw [ih (fun d hd => h d (List.mem_cons_of_mem c hd))]

/-- Splitting the space-joined list of nonempty whitespace-free words gives
back the words. -/
theorem pySplit_intercalate :
    ∀ {ws : List (List Char)},
      (∀ w ∈ ws, w ≠ [] ∧ ∀ c ∈ w, pyIsSpace c = false) →
      pySplit (List.intercalate [' '] ws) = ws := by
  intro ws
  induction ws with
  | nil => intro _; rfl
  | cons w rest ih =>
    intro h
    obtain ⟨hw, hwc⟩ := h w (List.mem_cons_self _ _)
    cases rest with
    | nil =>
      have hj : List.intercalate [' '] [w] = w := by simp [List.intercalate]
      rw [hj]
      unfold pySplit
      rw [splitOnPred_of_none hwc]
      simp [hw]
    | cons w2 rest2 =>
      have hjoin : List.intercalate [' '] (w :: w2 :: rest2) =
          w ++ ' ' :: List.intercalate [' '] (w2 :: rest2) := by
        simp [List.intercalate, List.intersperse]
      rw [hjoin]
      unfold pySplit
      rw [splitOnPred_append_sep (by decide) hwc]
      have hrest := ih (fun v hv => h v (List.mem_cons_of_mem w hv))
      unfold pySplit at hrest
      rw [List.filter_cons_of_pos (by simpa using hw), hrest]

/-! ## Word-decomposition lemmas for `normWord` -/

/-- `takeWhile`/`dropWhile` through a satisfied block up to a failing head. -/
theorem takeWhile_append_cons {p : Char → Bool} :
    ∀ {l : List Char}, (∀ x ∈ l, p x = true) → ∀ {y : Char}, p y = false →
      ∀ (ys : List Char),
        (l ++ y :: ys).takeWhile p = l ∧ (l ++ y :: ys).dropWhile p = y :: ys := by
  intro xs
  induction xs with
  | nil =>
    intro _ y hy ys
    simp [List.takeWhile, List.dropWhile, hy]
  | cons x xs ih =>
    intro h y hy ys
    have hx : p x = true := h x (List.mem_cons_self _ _)
    obtain ⟨h1, h2⟩ := ih (fun d hd => h d (List.mem_cons_of_mem x hd)) hy ys
    constructor
    · simp only [List.cons_append, List.takeWhile, hx, List.append_eq]
      rw [h1]
    · simp only [List.cons_append, List.dropWhile, hx, List.append_eq]
      rw [h2]

/-- The head surviving `dropWhile` does not satisfy the predicate. -/
theorem dropWhile_head_false {p : Char → Bool} :
    ∀ {l : List Char} {c : Char} {t : List Char},
      l.dropWhile p = c :: t → p c = false := by
  intro l
  induction l with
  | nil => intro c t h; cases h
  | cons a rest ih =>
    intro c t h
    by_cases ha : p a
    · rw [List.dropWhile_cons_of_pos ha] at h
      exact ih h
    · rw [List.dropWhile_cons_of_neg ha] at h
      cases h
      simpa using ha

/-- A nonempty list is its last element consed onto nothing, seen reversed. -/
theorem reverse_eq_getLast_cons {l : List Char} (h : l ≠ []) :
    ∃ d t, l.reverse = d :: t ∧ l.getLast? = some d := by
  cases hr : l.reverse with
  | nil => exact absurd (by simpa using congrArg List.reverse hr) h
  | cons d t =>
    refine ⟨d, t, rfl, ?_⟩
    rw [← List.head?_reverse, hr]
    rfl

/-- Members of the `getLast?` are members. -/
theorem getLast?_mem {l : List Char} {x : Char} (h : l.getLast? = some x) : x ∈ l := by
  rw [← List.head?_reverse] at h
  have := List.mem_of_mem_head? h
  simpa using this

/-- The decomposition `word = pre ++ core ++ suf` used by `normWord`:
`pre` is the maximal leading non-word run, `suf` the maximal trailing one. -/
theorem normWord_decomp (word : List Char) :
    word = word.takeWhile (fun c => !isWordChar c) ++
      (((word.dropWhile (fun c => !isWordChar c)).reverse.dropWhile
          (fun c => !isWordChar c)).reverse ++
       ((word.dropWhile (fun c => !isWordChar c)).reverse.takeWhile
          (fun c => !isWordChar c)).reverse) := by
  have h1 : word = word.takeWhile (fun c => !isWordChar c) ++
      word.dropWhile (fun c => !isWordChar c) :=
    (List.takeWhile_append_dropWhile _ _).symm
  nth_rewrite 1 [h1]
  congr 1
  have h2 := List.takeWhile_append_dropWhile (fun c => !isWordChar c)
    (word.dropWhile (fun c => !isWordChar c)).reverse
  have h3 := congrArg List.reverse h2
  simp only [List.reverse_append, List.reverse_reverse] at h3
  exact h3.symm

/-- The head of the core is a word character. -/
theorem core_head_word {word : List Char}
    (h : ((word.dropWhile (fun c => !isWordChar c)).reverse.dropWhile
        (fun c => !isWordChar c)).reverse ≠ []) :
    ∃ c t, ((word.dropWhile (fun c => !isWordChar c)).reverse.dropWhile
        (fun c => !isWordChar c)).reverse = c :: t ∧ isWordChar c = true := by
  have hsplit := List.takeWhile_append_dropWhile (fun c => !isWordChar c)
    (word.dropWhile (fun c => !isWordChar c)).reverse
  have hrev := congrArg List.reverse hsplit
  simp only [List.reverse_append, List.reverse_reverse] at hrev
  cases hcore : ((word.dropWhile (fun c => !isWordChar c)).reverse.dropWhile
      (fun c => !isWordChar c)).reverse with
  | nil => exact absurd hcore h
  | cons c' t' =>
    refine ⟨c', t', rfl, ?_⟩
    rw [hcore] at hrev
    have hhead : (word.dropWhile (fun c => !isWordChar c)).head? = some c' := by
      rw [← hrev]
      rfl
    cases hmids : word.dropWhile (fun c => !isWordChar c) with
    | nil => rw [hmids] at hhead; cases hhead
    | cons m mt =>
      rw [hmids] at hhead
      have hm : m = c' := by simpa using hhead
      have := dropWhile_head_false (p := fun c => !isWordChar c) hmids
      rw [← hm]
      simpa using this

/-- The last character of the core is a word character. -/
theorem core_last_word {word : List Char}
    (h : ((word.dropWhile (fun c => !isWordChar c)).reverse.dropWhile
        (fun c => !isWordChar c)).reverse ≠ []) :
    ∃ d, ((word.dropWhile (fun c => !isWordChar c)).reverse.dropWhile
        (fun c => !isWordChar c)).reverse.getLast? = some d ∧ isWordChar d = true := by
  have hne : (word.dropWhile (fun c => !isWordChar c)).reverse.dropWhile
      (fun c => !isWordChar c) ≠ [] := by
    intro hv
    rw [hv] at h
    simp at h
  cases hd : (word.dropWhile (fun c => !isWordChar c)).reverse.dropWhile
      (fun c => !isWordChar c) with
  | nil => exact absurd hd hne
  | cons d t =>
    refine ⟨d, ?_, by simpa using dropWhile_head_false hd⟩
    rw [List.getLast?_reverse]
    rfl

/-! ## Predicate-transfer lemmas for the model's character classes -/

/-- `isWordChar` characterised at the `toNat` level. -/
theorem isWordChar_iff_toNat (c : Char) :
    isWordChar c = true ↔ (65 ≤ c.toNat ∧ c.toNat ≤ 90) ∨ (97 ≤ c.toNat ∧ c.toNat ≤ 122) ∨
      (48 ≤ c.toNat ∧ c.toNat ≤ 57) ∨ c.toNat = 95 := by
  unfold isWordChar
  rw [Bool.or_eq_true, isAlphanum_iff_toNat, beq_char_iff]
  constructor
  · rintro (h | h)
    · tauto
    · right; right; right; simpa using h
  · rintro (h | h | h | h)
    · tauto
    · tauto
    · tauto
    · right; simpa using h

theorem isWordChar_toUpper (c : Char) : isWordChar c.toUpper = isWordChar c := by
  rw [Bool.eq_iff_iff, isWordChar_iff_toNat, isWordChar_iff_toNat, toUpper_toNat]
  split_ifs <;> omega

theorem isWordChar_toLower (c : Char) : isWordChar c.toLower = isWordChar c := by
  rw [Bool.eq_iff_iff, isWordChar_iff_toNat, isWordChar_iff_toNat, toLower_toNat]
  split_ifs <;> omega

/-- `pyIsSpace` characterised at the `toNat` level. -/
theorem pyIsSpace_iff_toNat (c : Char) :
    pyIsSpace c = true ↔ c.toNat = 32 ∨ c.toNat = 9 ∨ c.toNat = 10 ∨ c.toNat = 13 ∨
      c.toNat = 11 ∨ c.toNat = 12 := by
  unfold pyIsSpace
  simp only [Bool.or_eq_true, beq_char_iff]
  rw [show ' '.toNat = 32 from by decide, show '\t'.toNat = 9 from by decide,
    show '\n'.toNat = 10 from by decide, show '\r'.toNat = 13 from by decide,
    show '\x0b'.toNat = 11 from by decide, show '\x0c'.toNat = 12 from by decide]
  tauto

theorem pyIsSpace_toUpper (c : Char) : pyIsSpace c.toUpper = pyIsSpace c := by
  rw [Bool.eq_iff_iff, pyIsSpace_iff_toNat, pyIsSpace_iff_toNat, toUpper_toNat]
  split_ifs <;> omega

theorem pyIsSpace_toLower (c : Char) : pyIsSpace c.toLower = pyIsSpace c := by
  rw [Bool.eq_iff_iff, pyIsSpace_iff_toNat, pyIsSpace_iff_toNat, toLower_toNat]
  split_ifs <;> omega

/-- `isDashChar` characterised at the `toNat` level. -/
theorem isDashChar_iff_toNat (c : Char) :
    isDashChar c = true ↔ c.toNat = 45 ∨ c.toNat = 8211 := by
  unfold isDashChar
  simp only [Bool.or_eq_true, beq_char_iff]
  constructor
  · rintro (h | h)
    · left; simpa using h
    · right
      have : (isDashChar.rquoteDash).toNat = 8211 := by decide
      omega
  · rintro (h | h)
    · left; simpa using h
    · right
      have : (isDashChar.rquoteDash).toNat = 8211 := by decide
      omega

theorem isDashChar_toUpper (c : Char) : isDashChar c.toUpper = isDashChar c := by
  rw [Bool.eq_iff_iff, isDashChar_iff_toNat, isDashChar_iff_toNat, toUpper_toNat]
  split_ifs <;> omega

theorem isDashChar_toLower (c : Char) : isDashChar c.toLower = isDashChar c := by
  rw [Bool.eq_iff_iff, isDashChar_iff_toNat, isDashChar_iff_toNat, toLower_toNat]
  split_ifs <;> omega

/-- A word character is neither quote. -/
theorem word_not_quote {c : Char} (h : isWordChar c = true) :
    c ≠ quoteChar ∧ c ≠ rquoteChar := by
  rw [isWordChar_iff_toNat] at h
  have hq : quoteChar.toNat = 39 := by decide
  have hr : rquoteChar.toNat = 8217 := by decide
  constructor
  · intro he; rw [char_eq_iff_toNat, hq] at he; omega
  · intro he; rw [char_eq_iff_toNat, hr] at he; omega

/-- A word character is not a dash. -/
theorem word_not_dash {c : Char} (h : isWordChar c = true) : isDashChar c = false := by
  rw [isWordChar_iff_toNat] at h
  rw [← Bool.not_eq_true, isDashChar_iff_toNat]
  omega

/-- Neither case mapping produces a quote from a non-quote. -/
theorem toUpper_ne_quote {c : Char} (h1 : c ≠ quoteChar) : c.toUpper ≠ quoteChar := by
  have hq : quoteChar.toNat = 39 := by decide
  intro he
  rw [char_eq_iff_toNat, hq, toUpper_toNat] at he
  have h2 : c.toNat ≠ quoteChar.toNat := fun hh => h1 (char_eq_iff_toNat.mpr hh)
  rw [hq] at h2
  split_ifs at he <;> omega

theorem toLower_ne_quote {c : Char} (h1 : c ≠ quoteChar) : c.toLower ≠ quoteChar := by
  have hq : quoteChar.toNat = 39 := by decide
  intro he
  rw [char_eq_iff_toNat, hq, toLower_toNat] at he
  have h2 : c.toNat ≠ quoteChar.toNat := fun hh => h1 (char_eq_iff_toNat.mpr hh)
  rw [hq] at h2
  split_ifs at he <;> omega

theorem toUpper_ne_rquote {c : Char} (h1 : c ≠ rquoteChar) : c.toUpper ≠ rquoteChar := by
  have hq : rquoteChar.toNat = 8217 := by decide
  intro he
  rw [char_eq_iff_toNat, hq, toUpper_toNat] at he
  have h2 : c.toNat ≠ rquoteChar.toNat := fun hh => h1 (char_eq_iff_toNat.mpr hh)
  rw [hq] at h2
  split_ifs at he <;> omega

theorem toLower_ne_rquote {c : Char} (h1 : c ≠ rquoteChar) : c.toLower ≠ rquoteChar := by
  have hq : rquoteChar.toNat = 8217 := by decide
  intro he
  rw [char_eq_iff_toNat, hq, toLower_toNat] at he
  have h2 : c.toNat ≠ rquoteChar.toNat := fun hh => h1 (char_eq_iff_toNat.mpr hh)
  rw [hq] at h2
  split_ifs at he <;> omega

/-- `toUpper` never yields the lowercase letter `s`. -/
theorem toUpper_ne_s (c : Char) : c.toUpper ≠ 's' := by
  intro he
  have hl := isLower_toUpper_false c
  rw [he] at hl
  simp at hl

/-! ## Facts about `titleCoreGo` -/

/-- `titleCoreGo` is empty only on the empty list. -/
theorem titleCoreGo_eq_nil {b : Bool} {s : List Char} :
    titleCoreGo b s = [] ↔ s = [] := by
  cases s with
  | nil => simp [titleCoreGo]
  | cons c rest =>
    simp only [titleCoreGo]
    split <;> simp

/-- Every character of `titleCoreGo` is the case-mapping of a character of
the input (dashes map to themselves under `toUpper`). -/
theorem titleCoreGo_mem {b : Bool} {s : List Char} {c : Char}
    (h : c ∈ titleCoreGo b s) : ∃ d ∈ s, c = d ∨ c = d.toUpper ∨ c = d.toLower := by
  induction s generalizing b with
  | nil => cases h
  | cons a rest ih =>
    simp only [titleCoreGo] at h
    split at h
    · rcases List.mem_cons.mp h with heq | h'
      · exact ⟨a, List.mem_cons_self _ _, Or.inl heq⟩
      · obtain ⟨d, hd, hc⟩ := ih h'
        exact ⟨d, List.mem_cons_of_mem a hd, hc⟩
    · rcases List.mem_cons.mp h with heq | h'
      · cases b with
        | true => exact ⟨a, List.mem_cons_self _ _, Or.inr (Or.inl (by simpa using heq))⟩
        | false => exact ⟨a, List.mem_cons_self _ _, Or.inr (Or.inr (by simpa using heq))⟩
      · obtain ⟨d, hd, hc⟩ := ih h'
        exact ⟨d, List.mem_cons_of_mem a hd, hc⟩

/-- Lowercasing the output of `titleCoreGo` is lowercasing the input. -/
theorem titleCoreGo_map_toLower {s : List Char} :
    ∀ {b : Bool}, (titleCoreGo b s).map Char.toLower = s.map Char.toLower := by
  induction s with
  | nil => intro b; rfl
  | cons a rest ih =>
    intro b
    simp only [titleCoreGo]
    split
    · simp only [List.map_cons, ih]
    · cases b with
      | true => simp [ih, toLower_toUpper]
      | false => simp [ih, toLower_toLower]

/-- `titleCoreGo` is idempotent (with the same starting flag). -/
theorem titleCoreGo_idem {s : List Char} :
    ∀ {b : Bool}, titleCoreGo b (titleCoreGo b s) = titleCoreGo b s := by
  induction s with
  | nil => intro b; rfl
  | cons a rest ih =>
    intro b
    simp only [titleCoreGo]
    split
    · next hdash =>
      simp [titleCoreGo, hdash, ih]
    · next hdash =>
      have hnd : isDashChar (if b = true then a.toUpper else a.toLower) = false := by
        cases b with
        | true => simp [isDashChar_toUpper, hdash]
        | false => simp [isDashChar_toLower, hdash]
      simp only [titleCoreGo, hnd, Bool.false_eq_true, if_false, ih]
      cases b with
      | true => simp [toUpper_toUpper]
      | false => simp [toLower_toLower]

/-- The head of `titleCoreGo true` on a non-dash-headed list. -/
theorem titleCoreGo_head {c : Char} {t : List Char} (h : isDashChar c = false) :
    titleCoreGo true (c :: t) = c.toUpper :: titleCoreGo false t := by
  simp [titleCoreGo, h]

/-- `getLast?` skips the head when the tail is nonempty. -/
theorem getLast?_cons_ne {x : Char} {t : List Char} (h : t ≠ []) :
    (x :: t).getLast? = t.getLast? := by
  cases t with
  | nil => exact absurd rfl h
  | cons y ys => rw [List.getLast?_cons_cons]

/-- The cons equation of `titleCoreGo`. -/
theorem titleCoreGo_cons (b : Bool) (c : Char) (rest : List Char) :
    titleCoreGo b (c :: rest) =
      if isDashChar c then c :: titleCoreGo true rest
      else (if b then c.toUpper else c.toLower) :: titleCoreGo false rest := rfl

/-- `titleCoreGo` preserves "the last character is a word character". -/
theorem titleCoreGo_last_word {s : List Char} :
    ∀ {b : Bool} {d : Char}, s.getLast? = some d → isWordChar d = true →
      ∃ d', (titleCoreGo b s).getLast? = some d' ∧ isWordChar d' = true := by
  induction s with
  | nil => intro b d h; cases h
  | cons a rest ih =>
    intro b d h hw
    by_cases hrn : rest = []
    · subst hrn
      have hd : a = d := by simpa using h
      subst hd
      have hnd : isDashChar a = false := word_not_dash hw
      rw [titleCoreGo_cons, if_neg (by simp [hnd])]
      cases b with
      | true =>
        refine ⟨a.toUpper, by simp [titleCoreGo], ?_⟩
        rw [isWordChar_toUpper]
        exact hw
      | false =>
        refine ⟨a.toLower, by simp [titleCoreGo], ?_⟩
        rw [isWordChar_toLower]
        exact hw
    · have hrest : rest.getLast? = some d := by
        cases hr2 : rest with
        | nil => exact absurd hr2 hrn
        | cons x xs =>
          rw [hr2] at h
          rw [List.getLast?_cons_cons] at h
          exact h
      rw [titleCoreGo_cons]
      split
      · obtain ⟨d', h1, h2⟩ := ih (b := true) hrest hw
        have hne : titleCoreGo true rest ≠ [] :=
          fun hh => hrn (titleCoreGo_eq_nil.mp hh)
        exact ⟨d', by rw [getLast?_cons_ne hne]; exact h1, h2⟩
      · obtain ⟨d', h1, h2⟩ := ih (b := false) hrest hw
        have hne : titleCoreGo false rest ≠ [] :=
          fun hh => hrn (titleCoreGo_eq_nil.mp hh)
        exact ⟨d', by rw [getLast?_cons_ne hne]; exact h1, h2⟩

/-! ## Facts about `stripPoss` -/

/-- Characters of `stripPoss s` are characters of `s`. -/
theorem stripPoss_subset : ∀ (s : List Char) (c : Char), c ∈ stripPoss s → c ∈ s := by
  intro s
  induction s using stripPoss.induct with
  | case1 => intro c h; cases h
  | case2 x => intro c h; simpa [stripPoss] using h
  | case3 a b t hcond ih =>
    intro c h
    rw [stripPoss, if_pos hcond] at h
    exact List.mem_cons_of_mem a (List.mem_cons_of_mem b (ih c h))
  | case4 a b t hcond ih =>
    intro c h
    rw [stripPoss, if_neg hcond] at h
    rcases List.mem_cons.mp h with heq | h'
    · exact heq ▸ List.mem_cons_self _ _
    · exact List.mem_cons_of_mem a (ih c h')

/-- `stripPoss` is the identity on quote-free lists. -/
theorem stripPoss_eq_self : ∀ (s : List Char),
    (∀ c ∈ s, c ≠ quoteChar ∧ c ≠ rquoteChar) → stripPoss s = s := by
  intro s
  induction s using stripPoss.induct with
  | case1 => intro _; rfl
  | case2 x => intro _; rfl
  | case3 a b t hcond ih =>
    intro h
    exact absurd hcond.1 (by
      have hq := h a (List.mem_cons_self _ _)
      rintro (h1 | h1)
      · exact hq.1 h1
      · exact hq.2 h1)
  | case4 a b t hcond ih =>
    intro h
    rw [stripPoss, if_neg hcond]
    rw [ih (fun c hc => h c (List.mem_cons_of_mem a hc))]

/-- The two-cons equation of `stripPoss`. -/
theorem stripPoss_cons_cons (a b : Char) (t : List Char) :
    stripPoss (a :: b :: t) =
      if (a = quoteChar ∨ a = rquoteChar) ∧ b = 's' ∧
          t.all (fun e => !isWordChar e) then
        stripPoss t
      else a :: stripPoss (b :: t) := rfl

/-- `stripPoss` keeps something when the word-shaped middle cannot be eaten:
the characters before the core are non-word, the core is nonempty, starts and
ends with a word character, and is not the single letter `s`. -/
theorem stripPoss_ne_nil {pre core suf : List Char}
    (hpre : ∀ c ∈ pre, isWordChar c = false)
    (hne : core ≠ [])
    (hhead : ∃ c t, core = c :: t ∧ isWordChar c = true)
    (hlast : ∃ d, core.getLast? = some d ∧ isWordChar d = true)
    (hs : core ≠ ['s']) :
    stripPoss (pre ++ core ++ suf) ≠ [] := by
  obtain ⟨c, t, hct, hcw⟩ := hhead
  subst hct
  cases pre with
  | nil =>
    simp only [List.nil_append, List.cons_append]
    cases ht : t ++ suf with
    | nil => simp [stripPoss]
    | cons b u =>
      rw [stripPoss_cons_cons]
      split
      · next hcond =>
        exact absurd hcond.1 (by
          have hq := word_not_quote hcw
          rintro (h1 | h1)
          · exact hq.1 h1
          · exact hq.2 h1)
      · simp
  | cons q pre' =>
    simp only [List.cons_append, List.append_assoc]
    cases hrest : pre' ++ (c :: (t ++ suf)) with
    | nil =>
      obtain ⟨h1, h2⟩ := List.append_eq_nil.mp hrest
      cases h2
    | cons b u =>
      rw [stripPoss_cons_cons]
      split
      · next hcond =>
        obtain ⟨hq, hb, hall⟩ := hcond
        rw [List.all_eq_true] at hall
        exfalso
        cases pre' with
        | cons p0 pt =>
          have hb0 : b = p0 := by
            have hh := congrArg List.head? hrest
            have hh2 : p0 = b := by simpa using hh
            exact hh2.symm
          have hp0 : isWordChar p0 = false :=
            hpre p0 (List.mem_cons_of_mem q (List.mem_cons_self _ _))
          rw [← hb0, hb] at hp0
          exact absurd hp0 (by decide)
        | nil =>
          simp only [List.nil_append, List.cons_append] at hrest
          have hb0 : b = c := by
            have hh := congrArg List.head? hrest
            have hh2 : c = b := by simpa using hh
            exact hh2.symm
          have hu : u = t ++ suf := by
            have hh := congrArg List.tail hrest
            have hh2 : t ++ suf = u := by simpa using hh
            exact hh2.symm
          cases t with
          | nil =>
            apply hs
            rw [← hb0, hb]
          | cons t0 tt =>
            obtain ⟨d, hd, hdw⟩ := hlast
            rw [List.getLast?_cons_cons] at hd
            have hdmem : d ∈ t0 :: tt := getLast?_mem hd
            have hdu : d ∈ u := by
              rw [hu]
              exact List.mem_append_left _ hdmem
            have hcontra := hall d hdu
            rw [hdw] at hcontra
            cases hcontra
      · simp

/-! ## Facts about the fixed word lists -/

/-- Every display lower-word is nonempty, all-lowercase-alphabetic,
apostrophe-free, fixed by lowercasing, not all-caps by `pyIsUpperStr`,
digit-free, distinct from `["s"]`, and starts and ends with a word
character. -/
theorem lowerWords_facts : ∀ lw ∈ lowerWords,
    lw ≠ [] ∧ (∀ c ∈ lw, c.isAlpha = true ∧ c.isLower = true ∧
        c ≠ quoteChar ∧ c ≠ rquoteChar) ∧
      lw.map Char.toLower = lw ∧ pyIsUpperStr lw = false ∧
      lw.any Char.isDigit = false ∧ lw ≠ ['s'] := by
  decide

/-- Alphabetic implies word character. -/
theorem isWordChar_of_isAlpha {c : Char} (h : c.isAlpha = true) :
    isWordChar c = true := by
  rw [isAlpha_iff_toNat] at h
  rw [isWordChar_iff_toNat]
  omega

/-- `getLast?` through `map`. -/
theorem getLast?_map (f : Char → Char) (l : List Char) :
    (l.map f).getLast? = l.getLast?.map f := by
  rw [← List.head?_reverse, ← List.map_reverse, List.head?_map, List.head?_reverse]

/-! ## Facts about `newCoreOf` -/

/-- The recased core is nonempty, word-bounded on both sides, and is not the
single lowercase letter `s`. -/
theorem newCoreOf_facts (isFirst : Bool) (core : List Char)
    (hne : core ≠ [])
    (hhead : ∃ c t, core = c :: t ∧ isWordChar c = true)
    (hlast : ∃ d, core.getLast? = some d ∧ isWordChar d = true) :
    newCoreOf isFirst core ≠ [] ∧
    (∃ c t, newCoreOf isFirst core = c :: t ∧ isWordChar c = true) ∧
    (∃ d, (newCoreOf isFirst core).getLast? = some d ∧ isWordChar d = true) ∧
    newCoreOf isFirst core ≠ ['s'] := by
  obtain ⟨c, t, hct, hcw⟩ := hhead
  obtain ⟨d, hd, hdw⟩ := hlast
  unfold newCoreOf
  split_ifs with h1 h2
  · refine ⟨hne, ⟨c, t, hct, hcw⟩, ⟨d, hd, hdw⟩, ?_⟩
    intro hcs
    rw [hcs] at h1
    exact absurd h1 (by decide)
  · obtain ⟨hmem, _⟩ := h2
    refine ⟨?_, ?_, ?_, ?_⟩
    · intro hnil
      rw [hct] at hnil
      cases hnil
    · exact ⟨c.toLower, t.map Char.toLower, by rw [hct]; rfl,
        by rw [isWordChar_toLower]; exact hcw⟩
    · refine ⟨d.toLower, ?_, by rw [isWordChar_toLower]; exact hdw⟩
      rw [getLast?_map, hd]
      rfl
    · exact (lowerWords_facts _ hmem).2.2.2.2.2
  · have hnd : isDashChar c = false := word_not_dash hcw
    have hhead' : titleCore core = c.toUpper :: titleCoreGo false t := by
      rw [hct]
      exact titleCoreGo_head hnd
    refine ⟨?_, ?_, ?_, ?_⟩
    · intro hnil
      exact hne (titleCoreGo_eq_nil.mp hnil)
    · exact ⟨c.toUpper, titleCoreGo false t, hhead',
        by rw [isWordChar_toUpper]; exact hcw⟩
    · exact titleCoreGo_last_word hd hdw
    · intro hcs
      rw [hhead'] at hcs
      injection hcs with h1l _
      exact toUpper_ne_s c h1l

/-- Every character of the recased core is a case-mapping of a character of
the core. -/
theorem newCoreOf_chars {isFirst : Bool} {core : List Char} {c : Char}
    (h : c ∈ newCoreOf isFirst core) :
    ∃ d ∈ core, c = d ∨ c = d.toUpper ∨ c = d.toLower := by
  unfold newCoreOf at h
  split_ifs at h
  · exact ⟨c, h, Or.inl rfl⟩
  · obtain ⟨d, hd, hc⟩ := List.mem_map.mp h
    exact ⟨d, hd, Or.inr (Or.inr hc.symm)⟩
  · exact titleCoreGo_mem h

/-- The recasing of a core is idempotent. -/
theorem newCoreOf_idem (isFirst : Bool) (core : List Char) :
    newCoreOf isFirst (newCoreOf isFirst core) = newCoreOf isFirst core := by
  by_cases h1 : (pyIsUpperStr core || core.any Char.isDigit) = true
  · have hval : newCoreOf isFirst core = core := by
      rw [newCoreOf, if_pos h1]
    rw [hval]
    exact hval
  · by_cases h2 : core.map Char.toLower ∈ lowerWords ∧ isFirst = false
    · have hval : newCoreOf isFirst core = core.map Char.toLower := by
        rw [newCoreOf, if_neg h1, if_pos h2]
      rw [hval]
      have hfacts := lowerWords_facts _ h2.1
      have hA : ¬ (pyIsUpperStr (core.map Char.toLower) ||
          (core.map Char.toLower).any Char.isDigit) = true := by
        rw [Bool.or_eq_true]
        rintro (hx | hx)
        · rw [hfacts.2.2.2.1] at hx
          cases hx
        · rw [hfacts.2.2.2.2.1] at hx
          cases hx
      have hB : (core.map Char.toLower).map Char.toLower ∈ lowerWords ∧
          isFirst = false := by
        rw [hfacts.2.2.1]
        exact h2
      rw [newCoreOf, if_neg hA, if_pos hB, hfacts.2.2.1]
    · have hval : newCoreOf isFirst core = titleCore core := by
        rw [newCoreOf, if_neg h1, if_neg h2]
      rw [hval]
      rw [newCoreOf]
      by_cases h3 : (pyIsUpperStr (titleCore core) ||
          (titleCore core).any Char.isDigit) = true
      · rw [if_pos h3]
      · rw [if_neg h3]
        have hmap : (titleCore core).map Char.toLower = core.map Char.toLower :=
          titleCoreGo_map_toLower
        have h4 : ¬ ((titleCore core).map Char.toLower ∈ lowerWords ∧
            isFirst = false) := by
          rw [hmap]
          exact h2
        rw [if_neg h4]
        exact titleCoreGo_idem

/-! ## The `normWord` closed form and its structure -/

/-- The definition of `normWord`, with its lets unfolded. -/
theorem normWord_eq (isFirst isLast : Bool) (word : List Char) :
    normWord isFirst isLast word =
      if (((word.dropWhile (fun c => !isWordChar c)).reverse.dropWhile
          (fun c => !isWordChar c)).reverse).isEmpty then word
      else
        if isLast then
          stripPoss (word.takeWhile (fun c => !isWordChar c) ++
            newCoreOf isFirst
              (((word.dropWhile (fun c => !isWordChar c)).reverse.dropWhile
                (fun c => !isWordChar c)).reverse) ++
            ((word.dropWhile (fun c => !isWordChar c)).reverse.takeWhile
              (fun c => !isWordChar c)).reverse)
        else
          word.takeWhile (fun c => !isWordChar c) ++
            newCoreOf isFirst
              (((word.dropWhile (fun c => !isWordChar c)).reverse.dropWhile
                (fun c => !isWordChar c)).reverse) ++
            ((word.dropWhile (fun c => !isWordChar c)).reverse.takeWhile
              (fun c => !isWordChar c)).reverse := rfl

/-- Decomposition of a word already in `pre ++ core ++ suf` shape, with
non-word outsides and a word-bounded core. -/
theorem decomp_parts {pre nc suf : List Char}
    (hpre : ∀ c ∈ pre, isWordChar c = false)
    (hsuf : ∀ c ∈ suf, isWordChar c = false)
    (hhead : ∃ c t, nc = c :: t ∧ isWordChar c = true)
    (hlast : ∃ d, nc.getLast? = some d ∧ isWordChar d = true) :
    (pre ++ nc ++ suf).takeWhile (fun c => !isWordChar c) = pre ∧
    (pre ++ nc ++ suf).dropWhile (fun c => !isWordChar c) = nc ++ suf ∧
    ((nc ++ suf).reverse.dropWhile (fun c => !isWordChar c)).reverse = nc ∧
    ((nc ++ suf).reverse.takeWhile (fun c => !isWordChar c)).reverse = suf := by
  obtain ⟨c, t, hct, hcw⟩ := hhead
  obtain ⟨d, hd, hdw⟩ := hlast
  have hfront := takeWhile_append_cons (p := fun c => !isWordChar c)
    (l := pre) (fun x hx => by simpa using hpre x hx)
    (y := c) (by simpa using hcw) (t ++ suf)
  have hfront' : pre ++ nc ++ suf = pre ++ c :: (t ++ suf) := by
    rw [hct]
    simp
  obtain ⟨hne, _, _, _⟩ : nc ≠ [] ∧ True ∧ True ∧ True :=
    ⟨by rw [hct]; simp, trivial, trivial, trivial⟩
  obtain ⟨dr, tr, hrev, hdr⟩ := reverse_eq_getLast_cons hne
  have hdrw : isWordChar dr = true := by
    rw [hd] at hdr
    cases hdr
    exact hdw
  have hback := takeWhile_append_cons (p := fun c => !isWordChar c)
    (l := suf.reverse) (fun x hx => by
      simpa using hsuf x (by simpa using hx))
    (y := dr) (by simpa using hdrw) tr
  have hback' : (nc ++ suf).reverse = suf.reverse ++ dr :: tr := by
    rw [List.reverse_append, hrev]
  refine ⟨?_, ?_, ?_, ?_⟩
  · rw [hfront']
    exact hfront.1
  · rw [hfront']
    rw [hfront.2, hct]
    simp
  · rw [hback']
    rw [hback.2, ← hrev]
    simp
  · rw [hback']
    rw [hback.1]
    simp

/-! ## Per-word facts for the normalizer -/

/-- A word's core is word-bounded; bundled form of `core_head_word`,
`core_last_word` and the decomposition. -/
theorem word_core_facts (word : List Char)
    (hnc : (((word.dropWhile (fun c => !isWordChar c)).reverse.dropWhile
        (fun c => !isWordChar c)).reverse).isEmpty = false) :
    (((word.dropWhile (fun c => !isWordChar c)).reverse.dropWhile
        (fun c => !isWordChar c)).reverse) ≠ [] ∧
    (∃ c t, (((word.dropWhile (fun c => !isWordChar c)).reverse.dropWhile
        (fun c => !isWordChar c)).reverse) = c :: t ∧ isWordChar c = true) ∧
    (∃ d, (((word.dropWhile (fun c => !isWordChar c)).reverse.dropWhile
        (fun c => !isWordChar c)).reverse).getLast? = some d ∧
      isWordChar d = true) := by
  have hne : (((word.dropWhile (fun c => !isWordChar c)).reverse.dropWhile
      (fun c => !isWordChar c)).reverse) ≠ [] := by
    simpa using hnc
  exact ⟨hne, core_head_word hne, core_last_word hne⟩

/-- The transformed word of `normWord` is nonempty and whitespace-free when
the input word is. -/
theorem normWord_ne_nil_spacefree (isFirst isLast : Bool) (word : List Char)
    (hw : word ≠ []) (hs : ∀ c ∈ word, pyIsSpace c = false) :
    normWord isFirst isLast word ≠ [] ∧
    ∀ c ∈ normWord isFirst isLast word, pyIsSpace c = false := by
  rw [normWord_eq]
  cases hnc : (((word.dropWhile (fun c => !isWordChar c)).reverse.dropWhile
      (fun c => !isWordChar c)).reverse).isEmpty with
  | true => simpa [hnc] using ⟨hw, hs⟩
  | false =>
    simp only [Bool.false_eq_true, if_false]
    obtain ⟨hne, hhead, hlast⟩ := word_core_facts word hnc
    obtain ⟨hnc_ne, hnc_head, hnc_last, hnc_s⟩ :=
      newCoreOf_facts isFirst _ hne hhead hlast
    have hpre : ∀ c ∈ word.takeWhile (fun c => !isWordChar c),
        isWordChar c = false := by
      intro c hc
      simpa using List.mem_takeWhile_imp hc
    -- characters of the decomposition are characters of the word
    have hdec := normWord_decomp word
    have hmem_pre : ∀ c ∈ word.takeWhile (fun c => !isWordChar c), c ∈ word :=
      fun c hc => (List.takeWhile_sublist _).mem hc
    have hmem_core : ∀ c ∈ (((word.dropWhile (fun c => !isWordChar c)).reverse.dropWhile
        (fun c => !isWordChar c)).reverse), c ∈ word := by
      intro c hc
      have h1 : c ∈ (word.dropWhile (fun c => !isWordChar c)).reverse :=
        (List.dropWhile_sublist _).mem (by simpa using hc)
      exact (List.dropWhile_sublist _).mem (by simpa using h1)
    have hmem_suf : ∀ c ∈ ((word.dropWhile (fun c => !isWordChar c)).reverse.takeWhile
        (fun c => !isWordChar c)).reverse, c ∈ word := by
      intro c hc
      have h1 : c ∈ (word.dropWhile (fun c => !isWordChar c)).reverse :=
        (List.takeWhile_sublist _).mem (by simpa using hc)
      exact (List.dropWhile_sublist _).mem (by simpa using h1)
    have hsfinal : ∀ c ∈ word.takeWhile (fun c => !isWordChar c) ++
        newCoreOf isFirst (((word.dropWhile (fun c => !isWordChar c)).reverse.dropWhile
          (fun c => !isWordChar c)).reverse) ++
        ((word.dropWhile (fun c => !isWordChar c)).reverse.takeWhile
          (fun c => !isWordChar c)).reverse, pyIsSpace c = false := by
      intro c hc
      rcases List.mem_append.mp hc with hc1 | hcsuf
      · rcases List.mem_append.mp hc1 with hcpre | hccore
        · exact hs c (hmem_pre c hcpre)
        · obtain ⟨e, he, hcase⟩ := newCoreOf_chars hccore
          have hes : pyIsSpace e = false := hs e (hmem_core e he)
          rcases hcase with rfl | rfl | rfl
          · exact hes
          · rw [pyIsSpace_toUpper]
            exact hes
          · rw [pyIsSpace_toLower]
            exact hes
      · exact hs c (hmem_suf c hcsuf)
    cases isLast with
    | false =>
      simp only [Bool.false_eq_true, if_false]
      refine ⟨?_, hsfinal⟩
      intro hnil
      rcases List.append_eq_nil.mp (List.append_eq_nil.mp hnil).1 with ⟨_, h2⟩
      exact hnc_ne h2
    | true =>
      simp only [if_true]
      constructor
      · exact stripPoss_ne_nil hpre hnc_ne hnc_head hnc_last hnc_s
      · intro c hc
        exact hsfinal c (stripPoss_subset _ c hc)

/-- On an apostrophe-free word, `normWord` is idempotent. -/
theorem normWord_idem (isFirst isLast : Bool) (word : List Char)
    (hq : ∀ c ∈ word, c ≠ quoteChar ∧ c ≠ rquoteChar) :
    normWord isFirst isLast (normWord isFirst isLast word) =
      normWord isFirst isLast word := by
  cases hnc : (((word.dropWhile (fun c => !isWordChar c)).reverse.dropWhile
      (fun c => !isWordChar c)).reverse).isEmpty with
  | true =>
    have hfix : normWord isFirst isLast word = word := by
      rw [normWord_eq, if_pos (by rw [hnc])]
    rw [hfix, hfix]
  | false =>
    obtain ⟨hne, hhead, hlast⟩ := word_core_facts word hnc
    obtain ⟨hnc_ne, hnc_head, hnc_last, hnc_s⟩ :=
      newCoreOf_facts isFirst _ hne hhead hlast
    have hpre : ∀ c ∈ word.takeWhile (fun c => !isWordChar c),
        isWordChar c = false := by
      intro c hc
      simpa using List.mem_takeWhile_imp hc
    have hsuf : ∀ c ∈ ((word.dropWhile (fun c => !isWordChar c)).reverse.takeWhile
        (fun c => !isWordChar c)).reverse, isWordChar c = false := by
      intro c hc
      have hh := List.mem_takeWhile_imp (l := (word.dropWhile
        (fun c => !isWordChar c)).reverse) (p := fun c => !isWordChar c)
        (by simpa using hc)
      simpa using hh
    -- the final word of the first pass, before the possessive strip
    have hmem_pre : ∀ c ∈ word.takeWhile (fun c => !isWordChar c), c ∈ word :=
      fun c hc => (List.takeWhile_sublist _).mem hc
    have hmem_core : ∀ c ∈ (((word.dropWhile (fun c => !isWordChar c)).reverse.dropWhile
        (fun c => !isWordChar c)).reverse), c ∈ word := by
      intro c hc
      have h1 : c ∈ (word.dropWhile (fun c => !isWordChar c)).reverse :=
        (List.dropWhile_sublist _).mem (by simpa using hc)
      exact (List.dropWhile_sublist _).mem (by simpa using h1)
    have hmem_suf : ∀ c ∈ ((word.dropWhile (fun c => !isWordChar c)).reverse.takeWhile
        (fun c => !isWordChar c)).reverse, c ∈ word := by
      intro c hc
      have h1 : c ∈ (word.dropWhile (fun c => !isWordChar c)).reverse :=
        (List.takeWhile_sublist _).mem (by simpa using hc)
      exact (List.dropWhile_sublist _).mem (by simpa using h1)
    have hqfinal : ∀ c ∈ word.takeWhile (fun c => !isWordChar c) ++
        newCoreOf isFirst (((word.dropWhile (fun c => !isWordChar c)).reverse.dropWhile
          (fun c => !isWordChar c)).reverse) ++
        ((word.dropWhile (fun c => !isWordChar c)).reverse.takeWhile
          (fun c => !isWordChar c)).reverse,
        c ≠ quoteChar ∧ c ≠ rquoteChar := by
      intro c hc
      rcases List.mem_append.mp hc with hc1 | hcsuf
      · rcases List.mem_append.mp hc1 with hcpre | hccore
        · exact hq c (hmem_pre c hcpre)
        · obtain ⟨e, he, hcase⟩ := newCoreOf_chars hccore
          have heq := hq e (hmem_core e he)
          rcases hcase with rfl | rfl | rfl
          · exact heq
          · exact ⟨toUpper_ne_quote heq.1, toUpper_ne_rquote heq.2⟩
          · exact ⟨toLower_ne_quote heq.1, toLower_ne_rquote heq.2⟩
      · exact hq c (hmem_suf c hcsuf)
    have hpass1 : normWord isFirst isLast word =
        word.takeWhile (fun c => !isWordChar c) ++
        newCoreOf isFirst (((word.dropWhile (fun c => !isWordChar c)).reverse.dropWhile
          (fun c => !isWordChar c)).reverse) ++
        ((word.dropWhile (fun c => !isWordChar c)).reverse.takeWhile
          (fun c => !isWordChar c)).reverse := by
      rw [normWord_eq]
      rw [if_neg (by rw [hnc]; exact Bool.false_ne_true)]
      cases isLast with
      | false => rfl
      | true =>
        simp only [if_true]
        exact stripPoss_eq_self _ hqfinal
    -- second pass: decompose the pass-1 output
    obtain ⟨hd1, hd2, hd3, hd4⟩ := decomp_parts hpre hsuf hnc_head hnc_last
    rw [hpass1]
    rw [normWord_eq]
    rw [hd1, hd2, hd3, hd4]
    rw [if_neg (by simpa using hnc_ne)]
    have hcore2 : newCoreOf isFirst (newCoreOf isFirst
        (((word.dropWhile (fun c => !isWordChar c)).reverse.dropWhile
          (fun c => !isWordChar c)).reverse)) =
        newCoreOf isFirst (((word.dropWhile (fun c => !isWordChar c)).reverse.dropWhile
          (fun c => !isWordChar c)).reverse) := newCoreOf_idem _ _
    rw [hcore2]
    cases isLast with
    | false => rfl
    | true =>
      simp only [if_true]
      exact stripPoss_eq_self _ hqfinal

/-! ## Lifting to the word list -/

/-- `normWords` preserves the number of words. -/
theorem normWords_length (n : Nat) : ∀ (i : Nat) (ws : List (List Char)),
    (normWords n i ws).length = ws.length := by
  intro i ws
  induction ws generalizing i with
  | nil => rfl
  | cons w rest ih => simp [normWords, ih]

/-- `normWords` output words are nonempty and whitespace-free when the input
words are. -/
theorem normWords_chars (n : Nat) : ∀ (i : Nat) (ws : List (List Char)),
    (∀ w ∈ ws, w ≠ [] ∧ ∀ c ∈ w, pyIsSpace c = false) →
    ∀ x ∈ normWords n i ws, x ≠ [] ∧ ∀ c ∈ x, pyIsSpace c = false := by
  intro i ws
  induction ws generalizing i with
  | nil => intro _ x hx; cases hx
  | cons w rest ih =>
    intro h x hx
    rcases List.mem_cons.mp hx with heq | hx'
    · obtain ⟨hw, hwc⟩ := h w (List.mem_cons_self _ _)
      subst heq
      exact normWord_ne_nil_spacefree _ _ w hw hwc
    · exact ih (i + 1) (fun v hv => h v (List.mem_cons_of_mem w hv)) x hx'

/-- `normWords` is idempotent on apostrophe-free words. -/
theorem normWords_idem (n : Nat) : ∀ (i : Nat) (ws : List (List Char)),
    (∀ w ∈ ws, ∀ c ∈ w, c ≠ quoteChar ∧ c ≠ rquoteChar) →
    normWords n i (normWords n i ws) = normWords n i ws := by
  intro i ws
  induction ws generalizing i with
  | nil => intro _; rfl
  | cons w rest ih =>
    intro h
    simp only [normWords]
    rw [normWord_idem _ _ w (h w (List.mem_cons_self _ _))]
    rw [ih (i + 1) (fun v hv => h v (List.mem_cons_of_mem w hv))]

/-! ## Claim C8 -/

/-- C8: `normalize_phrase_caps` returns a string with exactly as many
whitespace-delimited words as its input: it only re-cases characters and
strips a final possessive, never adding, removing, or emptying a word. -/
theorem C8_word_count_preserved (phrase : List Char) :
    (pySplit (normalize_phrase_caps phrase)).length = (pySplit phrase).length := by
  unfold normalize_phrase_caps
  dsimp only
  have hws : ∀ w ∈ pySplit phrase, w ≠ [] ∧ ∀ c ∈ w, pyIsSpace c = false :=
    fun w hw => pySplit_chars hw
  have hnorm := normWords_chars (pySplit phrase).length 0 (pySplit phrase) hws
  rw [pySplit_intercalate hnorm]
  exact normWords_length _ _ _

/-! ## Claim C7, amended part -/

/-- C7 amended: on phrases without apostrophe characters (`'` or `’`),
`normalize_phrase_caps` is idempotent (the counterexample shows it is not
idempotent in general: a second pass can strip a newly exposed possessive). -/
theorem C7_amended_idempotent_without_apostrophes (phrase : List Char)
    (hq : ∀ c ∈ phrase, c ≠ quoteChar ∧ c ≠ rquoteChar) :
    normalize_phrase_caps (normalize_phrase_caps phrase) =
      normalize_phrase_caps phrase := by
  unfold normalize_phrase_caps
  dsimp only
  have hws : ∀ w ∈ pySplit phrase, w ≠ [] ∧ ∀ c ∈ w, pyIsSpace c = false :=
    fun w hw => pySplit_chars hw
  have hnorm := normWords_chars (pySplit phrase).length 0 (pySplit phrase) hws
  rw [pySplit_intercalate hnorm]
  rw [normWords_length, normWords_idem]
  intro w hw c hc
  exact hq c (pySplit_subset hw c hc)

/-- C7 amended witness: a concrete apostrophe-free phrase. -/
theorem C7_witness :
    normalize_phrase_caps (normalize_phrase_caps "hello world".toList) =
      normalize_phrase_caps "hello world".toList :=
  C7_amended_idempotent_without_apostrophes "hello world".toList (by decide)

end AbbrCore
